import Mathlib

/-!
Verification of the PyRat core simulation engine.

This file is a shallow embedding of the Rust engine
(`src/game.rs`, `game/board.rs`, `game/cheese_board.rs`,
`game/maze_generation.rs`) together with proofs about it.

Modelling conventions, stated once:
* `u8` / `u16` / `u64` machine integers are modelled as `Nat`.  Saturating
  `u8` arithmetic (`Direction::apply_to`) is made explicit; the `u64`
  bitboard words carry an explicit `< 2 ^ 64` well-formedness bound where
  an exact complement is needed; the `u16` counters never reach `2 ^ 16`
  in any state whose counters agree with the bitboard population (at most
  255 * 255 cells), so their increments are modelled without a wrap.
* `f32` scores: every score the engine produces is an exact multiple of
  `1 / 2` (the only increments are `0.5` and `1.0`) with magnitude far
  below `2 ^ 24`, a range on which IEEE-754 single addition, division by
  two and comparison are exact.  We therefore store scores in half-point
  units as a `Nat` (`score` below is twice the `f32` value) and interpret
  them as rationals (`scoreQ`) in statements that talk about the `f32`
  value.
* Rust `HashMap`s appearing in interfaces are modelled as functions into
  `Option` (the only operation the engine uses is `get`).
-/

namespace PyRat

/-- `Coordinates` from `types.rs`: a pair of `u8`. -/
@[ext]
structure Coordinates where
  x : Nat
  y : Nat
deriving DecidableEq, Repr

/-- `Coordinates::new`. -/
def Coordinates.new (x y : Nat) : Coordinates := ⟨x, y⟩

/-- `Coordinates::to_index`: linear index `y * width + x`. -/
def Coordinates.to_index (c : Coordinates) (width : Nat) : Nat :=
  c.y * width + c.x

/-- `Direction` from `types.rs`. -/
inductive Direction where
  | Up
  | Right
  | Down
  | Left
  | Stay
deriving DecidableEq, Repr

/-- The `repr(u8)` tag of a direction (`Up = 0 .. Stay = 4`). -/
def Direction.tag : Direction → Nat
  | .Up => 0
  | .Right => 1
  | .Down => 2
  | .Left => 3
  | .Stay => 4

/-- `u8::saturating_add(1)` on a `Nat` holding a `u8` value. -/
def satSucc (n : Nat) : Nat := if n < 255 then n + 1 else 255

/-- `Direction::apply_to`: neighbour coordinate with saturating `u8`
arithmetic (`saturating_sub 1` is `Nat` subtraction). -/
def Direction.apply_to : Direction → Coordinates → Coordinates
  | .Up, pos => ⟨pos.x, satSucc pos.y⟩
  | .Down, pos => ⟨pos.x, pos.y - 1⟩
  | .Left, pos => ⟨pos.x - 1, pos.y⟩
  | .Right, pos => ⟨satSucc pos.x, pos.y⟩
  | .Stay, pos => pos

/-- The wall map handed to `MoveTable::new`: Rust
`HashMap<Coordinates, Vec<Coordinates>>`, modelled by its `get`. -/
def WallMap : Type := Coordinates → Option (List Coordinates)

/-- `has_wall` from `board.rs`, translated with its exact control flow:
the reverse-direction lookup happens only inside the branch where `from`
has an entry of its own. -/
def has_wall (walls : WallMap) (from_ : Coordinates) (direction : Direction) : Bool :=
  match walls from_ with
  | some blocked_cells =>
    let to_ := direction.apply_to from_
    if blocked_cells.contains to_ then
      true
    else
      match walls to_ with
      | some blocked_from => blocked_from.contains from_
      | none => false
  | none => false

/-- The 4-bit `moves` mask computed for one cell in the loop body of
`MoveTable::new`. -/
def cellMoves (width height : Nat) (walls : WallMap) (pos : Coordinates) : Nat :=
  let m0 : Nat := 0
  let m1 := if pos.y < height - 1 && !has_wall walls pos .Up then m0 ||| 1 else m0
  let m2 := if pos.x < width - 1 && !has_wall walls pos .Right then m1 ||| 2 else m1
  let m3 := if pos.y > 0 && !has_wall walls pos .Down then m2 ||| 4 else m2
  if pos.x > 0 && !has_wall walls pos .Left then m3 ||| 8 else m3

/-- The `moves` mask addressed by linear cell index (the construction loop
visits cells in increasing `to_index` order). -/
def cellMovesIdx (width height : Nat) (walls : WallMap) (idx : Nat) : Nat :=
  if idx < width * height then
    cellMoves width height walls ⟨idx % width, idx / width⟩
  else 0

/-- One byte of the packed table: cell `2 * b` in the low nibble, cell
`2 * b + 1` in the high nibble, exactly as the `|=` writes of
`MoveTable::new` leave it. -/
def packedByte (width height : Nat) (walls : WallMap) (b : Nat) : Nat :=
  cellMovesIdx width height walls (2 * b) |||
    cellMovesIdx width height walls (2 * b + 1) <<< 4

/-- `MoveTable` from `board.rs`: packed `Vec<u8>`, two cells per byte. -/
structure MoveTable where
  valid_moves : List Nat
  width : Nat
deriving DecidableEq, Repr

/-- `MoveTable::new`. -/
def MoveTable.new (width height : Nat) (walls : WallMap) : MoveTable :=
  { valid_moves :=
      (List.range ((width * height + 1) / 2)).map (packedByte width height walls)
    width := width }

/-- `MoveTable::is_move_valid`. -/
def MoveTable.is_move_valid (t : MoveTable) (pos : Coordinates) (direction : Direction) : Bool :=
  let idx := pos.to_index t.width
  let byte_idx := idx / 2
  let moves := t.valid_moves.getD byte_idx 0
  let position_moves := if idx % 2 == 0 then moves &&& 0xF else moves >>> 4
  position_moves &&& (1 <<< direction.tag) != 0

section MoveTableLemmas

/-- `x &&& 2 ^ k ≠ 0` tests bit `k`. -/
theorem and_one_shift_ne_zero (x k : Nat) :
    (x &&& (1 <<< k) != 0) = x.testBit k := by
  have h1 : (1 : Nat) <<< k = 2 ^ k := by
    rw [Nat.shiftLeft_eq, one_mul]
  rw [h1]
  cases hb : x.testBit k
  · have : x &&& 2 ^ k = 0 := by
      apply Nat.eq_of_testBit_eq
      intro i
      rw [Nat.testBit_and, Nat.zero_testBit, Nat.testBit_two_pow]
      rcases eq_or_ne k i with rfl | hne
      · simp [hb]
      · simp [hne]
    simp [this]
  · have : (x &&& 2 ^ k).testBit k = true := by
      rw [Nat.testBit_and, hb, Nat.testBit_two_pow]; simp
    have hne : x &&& 2 ^ k ≠ 0 := by
      intro h0
      rw [h0, Nat.zero_testBit] at this
      exact Bool.false_ne_true this
    simp [hne]

theorem cellMoves_lt_16 (w h : Nat) (walls : WallMap) (pos : Coordinates) :
    cellMoves w h walls pos < 16 := by
  unfold cellMoves
  split <;> split <;> split <;> split <;> decide

theorem cellMovesIdx_lt_16 (w h : Nat) (walls : WallMap) (idx : Nat) :
    cellMovesIdx w h walls idx < 16 := by
  unfold cellMovesIdx
  split
  · exact cellMoves_lt_16 _ _ _ _
  · decide

/-- Low nibble of a packed byte. -/
theorem packed_low (a b : Nat) (ha : a < 16) : (a ||| b <<< 4) &&& 0xF = a := by
  apply Nat.eq_of_testBit_eq
  intro i
  rw [Nat.testBit_and, Nat.testBit_or, Nat.testBit_shiftLeft]
  rcases lt_or_le i 4 with hi | hi
  · have h15 : (0xF : Nat).testBit i = true := by
      have : (0xF : Nat) = 2 ^ 4 - 1 := by norm_num
      rw [this, Nat.testBit_two_pow_sub_one]
      simpa using hi
    have : ¬ (4 ≤ i) := by omega
    simp [h15, this]
  · have h15 : (0xF : Nat).testBit i = false := by
      have : (0xF : Nat) = 2 ^ 4 - 1 := by norm_num
      rw [this, Nat.testBit_two_pow_sub_one]
      simpa using Nat.not_lt.mpr hi
    have h16 : (16 : Nat) ≤ 2 ^ i := by
      calc (16 : Nat) = 2 ^ 4 := by norm_num
      _ ≤ 2 ^ i := Nat.pow_le_pow_right (by norm_num) hi
    have ha' : a.testBit i = false :=
      Nat.testBit_lt_two_pow (lt_of_lt_of_le ha h16)
    simp [h15, ha']

/-- High nibble of a packed byte. -/
theorem packed_high (a b : Nat) (ha : a < 16) : (a ||| b <<< 4) >>> 4 = b := by
  apply Nat.eq_of_testBit_eq
  intro i
  rw [Nat.testBit_shiftRight, Nat.testBit_or, Nat.testBit_shiftLeft]
  have h16 : (16 : Nat) ≤ 2 ^ (4 + i) := by
    calc (16 : Nat) = 2 ^ 4 := by norm_num
    _ ≤ 2 ^ (4 + i) := Nat.pow_le_pow_right (by norm_num) (by omega)
  have ha' : a.testBit (4 + i) = false :=
    Nat.testBit_lt_two_pow (lt_of_lt_of_le ha h16)
  have h4 : 4 ≤ 4 + i := by omega
  rw [ha']
  simp [h4, Nat.add_sub_cancel_left]

/-- What a lookup in the freshly built table returns: the bit of the
cell's `moves` mask, for any in-bounds cell. -/
theorem is_move_valid_new (w h : Nat) (walls : WallMap) (pos : Coordinates)
    (hx : pos.x < w) (hy : pos.y < h) (d : Direction) :
    (MoveTable.new w h walls).is_move_valid pos d =
      (cellMoves w h walls pos).testBit d.tag := by
  have hidx : pos.to_index w < w * h := by
    unfold Coordinates.to_index
    calc pos.y * w + pos.x < pos.y * w + w := by omega
    _ = (pos.y + 1) * w := by ring
    _ ≤ h * w := Nat.mul_le_mul_right w (by omega)
    _ = w * h := Nat.mul_comm h w
  have hb : pos.to_index w / 2 < (w * h + 1) / 2 := by omega
  have hgetD :
      (MoveTable.new w h walls).valid_moves.getD (pos.to_index w / 2) 0 =
        packedByte w h walls (pos.to_index w / 2) := by
    unfold MoveTable.new
    rw [List.getD_eq_getElem?_getD, List.getElem?_map, List.getElem?_range hb]
    rfl
  have hw0 : 0 < w := by omega
  have hcell : cellMovesIdx w h walls (pos.to_index w) = cellMoves w h walls pos := by
    unfold cellMovesIdx
    rw [if_pos hidx]
    have hm : pos.to_index w % w = pos.x := by
      unfold Coordinates.to_index
      rw [Nat.mul_comm, Nat.mul_add_mod, Nat.mod_eq_of_lt hx]
    have hd : pos.to_index w / w = pos.y := by
      unfold Coordinates.to_index
      rw [Nat.mul_comm, Nat.mul_add_div hw0, Nat.div_eq_of_lt hx, Nat.add_zero]
    rw [hm, hd]
  unfold MoveTable.is_move_valid
  simp only [MoveTable.new] at hgetD ⊢
  rw [hgetD]
  unfold packedByte
  rcases Nat.even_or_odd (pos.to_index w) with he | ho
  · obtain ⟨b, hbb⟩ := he
    have h2b : pos.to_index w = 2 * b := by omega
    have hmod : (pos.to_index w % 2 == 0) = true := by
      simp only [beq_iff_eq]
      omega
    rw [hmod]
    simp only [if_true]
    rw [show pos.to_index w / 2 = b by omega,
      packed_low _ _ (cellMovesIdx_lt_16 w h walls (2 * b)),
      and_one_shift_ne_zero, ← h2b, hcell]
  · obtain ⟨b, hbb⟩ := ho
    have hmod : (pos.to_index w % 2 == 0) = false := by
      simp only [beq_eq_false_iff_ne, ne_eq]
      omega
    rw [hmod]
    simp only [Bool.false_eq_true, if_false]
    rw [show pos.to_index w / 2 = b by omega,
      packed_high _ _ (cellMovesIdx_lt_16 w h walls (2 * b)),
      and_one_shift_ne_zero, show 2 * b + 1 = pos.to_index w by omega, hcell]

/-- The four mask bits, as conditions of the construction loop.  Stated by
exhausting the four `if`s. -/
theorem cellMoves_testBit (w h : Nat) (walls : WallMap) (pos : Coordinates) :
    (cellMoves w h walls pos).testBit 0 =
        (pos.y < h - 1 && !has_wall walls pos .Up) ∧
      (cellMoves w h walls pos).testBit 1 =
        (pos.x < w - 1 && !has_wall walls pos .Right) ∧
      (cellMoves w h walls pos).testBit 2 =
        (pos.y > 0 && !has_wall walls pos .Down) ∧
      (cellMoves w h walls pos).testBit 3 =
        (pos.x > 0 && !has_wall walls pos .Left) ∧
      (cellMoves w h walls pos).testBit 4 = false := by
  unfold cellMoves
  rcases hUp : pos.y < h - 1 && !has_wall walls pos .Up <;>
    rcases hRight : pos.x < w - 1 && !has_wall walls pos .Right <;>
      rcases hDown : pos.y > 0 && !has_wall walls pos .Down <;>
        rcases hLeft : pos.x > 0 && !has_wall walls pos .Left <;>
          simp [hUp, hRight, hDown, hLeft] <;> decide

/-- A validated move's destination stays on the board and differs from the
source (`u8` saturation never fires for in-bounds boards). -/
theorem valid_move_dest (w h : Nat) (walls : WallMap) (pos : Coordinates)
    (hw : w ≤ 255) (hh : h ≤ 255) (hx : pos.x < w) (hy : pos.y < h) (d : Direction)
    (hv : (MoveTable.new w h walls).is_move_valid pos d = true) :
    (d.apply_to pos).x < w ∧ (d.apply_to pos).y < h ∧ d.apply_to pos ≠ pos := by
  rw [is_move_valid_new w h walls pos hx hy] at hv
  obtain ⟨h0, h1, h2, h3, h4⟩ := cellMoves_testBit w h walls pos
  cases d with
  | Up =>
    rw [Direction.tag] at hv
    rw [hv] at h0
    have hb : pos.y < h - 1 := by
      have := (Bool.and_eq_true _ _).mp h0.symm
      exact of_decide_eq_true this.1
    have hs : satSucc pos.y = pos.y + 1 := by unfold satSucc; rw [if_pos (by omega)]
    refine ⟨hx, ?_, ?_⟩ <;> simp [Direction.apply_to, hs, Coordinates.ext_iff] <;> omega
  | Right =>
    rw [Direction.tag] at hv
    rw [hv] at h1
    have hb : pos.x < w - 1 := by
      have := (Bool.and_eq_true _ _).mp h1.symm
      exact of_decide_eq_true this.1
    have hs : satSucc pos.x = pos.x + 1 := by unfold satSucc; rw [if_pos (by omega)]
    refine ⟨?_, hy, ?_⟩ <;> simp [Direction.apply_to, hs, Coordinates.ext_iff] <;> omega
  | Down =>
    rw [Direction.tag] at hv
    rw [hv] at h2
    have hb : pos.y > 0 := by
      have := (Bool.and_eq_true _ _).mp h2.symm
      exact of_decide_eq_true this.1
    refine ⟨hx, by simpa [Direction.apply_to] using by omega, ?_⟩
    simp [Direction.apply_to, Coordinates.ext_iff]
    omega
  | Left =>
    rw [Direction.tag] at hv
    rw [hv] at h3
    have hb : pos.x > 0 := by
      have := (Bool.and_eq_true _ _).mp h3.symm
      exact of_decide_eq_true this.1
    refine ⟨by simpa [Direction.apply_to] using by omega, hy, ?_⟩
    simp [Direction.apply_to, Coordinates.ext_iff]
    omega
  | Stay =>
    rw [Direction.tag] at hv
    rw [hv] at h4
    exact absurd h4 (by simp)

end MoveTableLemmas

/-! ## Cheese board (`cheese_board.rs`) -/

/-- `CheeseBoard`: bitboard (`Vec<u64>`, 64 cells per word) plus the two
`u16` counters. -/
structure CheeseBoard where
  bits : List Nat
  width : Nat
  initial_cheese_count : Nat
  remaining_cheese_count : Nat
deriving DecidableEq, Repr

/-- `u64` bitwise complement (`!mask`): all-ones xor. -/
def u64Not (m : Nat) : Nat := (2 ^ 64 - 1) ^^^ m

/-- `CheeseBoard::new`. -/
def CheeseBoard.new (width height : Nat) : CheeseBoard :=
  { bits := List.replicate ((width * height + 63) / 64) 0
    width := width
    initial_cheese_count := 0
    remaining_cheese_count := 0 }

/-- `CheeseBoard::has_cheese`. -/
def CheeseBoard.has_cheese (b : CheeseBoard) (pos : Coordinates) : Bool :=
  let idx := pos.to_index b.width
  b.bits.getD (idx / 64) 0 &&& (1 <<< (idx % 64)) != 0

/-- `CheeseBoard::place_cheese` (the mutation is returned as the second
component). -/
def CheeseBoard.place_cheese (b : CheeseBoard) (pos : Coordinates) : Bool × CheeseBoard :=
  let idx := pos.to_index b.width
  let word_idx := idx / 64
  let mask := 1 <<< (idx % 64)
  if b.bits.getD word_idx 0 &&& mask != 0 then
    (false, b)
  else
    (true,
      { b with
        bits := b.bits.set word_idx (b.bits.getD word_idx 0 ||| mask)
        initial_cheese_count := b.initial_cheese_count + 1
        remaining_cheese_count := b.remaining_cheese_count + 1 })

/-- `CheeseBoard::restore_cheese`: like `place_cheese` but leaves
`initial_cheese_count` alone. -/
def CheeseBoard.restore_cheese (b : CheeseBoard) (pos : Coordinates) : Bool × CheeseBoard :=
  let idx := pos.to_index b.width
  let word_idx := idx / 64
  let mask := 1 <<< (idx % 64)
  if b.bits.getD word_idx 0 &&& mask != 0 then
    (false, b)
  else
    (true,
      { b with
        bits := b.bits.set word_idx (b.bits.getD word_idx 0 ||| mask)
        remaining_cheese_count := b.remaining_cheese_count + 1 })

/-- `CheeseBoard::take_cheese`. -/
def CheeseBoard.take_cheese (b : CheeseBoard) (pos : Coordinates) : Bool × CheeseBoard :=
  let idx := pos.to_index b.width
  let word_idx := idx / 64
  let mask := 1 <<< (idx % 64)
  let had_cheese := b.bits.getD word_idx 0 &&& mask != 0
  if had_cheese then
    (true,
      { b with
        bits := b.bits.set word_idx (b.bits.getD word_idx 0 &&& u64Not mask)
        remaining_cheese_count := b.remaining_cheese_count - 1 })
  else
    (false, b)

/-- `CheeseBoard::total_cheese`. -/
def CheeseBoard.total_cheese (b : CheeseBoard) : Nat := b.initial_cheese_count

/-- `CheeseBoard::remaining_cheese`. -/
def CheeseBoard.remaining_cheese (b : CheeseBoard) : Nat := b.remaining_cheese_count

/-- The set of linear cell indices currently holding cheese. -/
def CheeseBoard.cheeseCells (b : CheeseBoard) : Finset Nat :=
  (Finset.range (64 * b.bits.length)).filter
    fun i => (b.bits.getD (i / 64) 0).testBit (i % 64)

/-- Data-model well-formedness of a cheese board: the words are `u64`
values and `remaining_cheese_count` counts the set bits (true of every
board the engine constructs, and preserved by all operations). -/
def CheeseBoard.WF (b : CheeseBoard) : Prop :=
  (∀ w ∈ b.bits, w < 2 ^ 64) ∧ b.remaining_cheese_count = b.cheeseCells.card

instance (b : CheeseBoard) : Decidable b.WF :=
  inferInstanceAs (Decidable
    ((∀ w ∈ b.bits, w < 2 ^ 64) ∧ b.remaining_cheese_count = b.cheeseCells.card))

section CheeseBoardLemmas

theorem has_cheese_eq_testBit (b : CheeseBoard) (pos : Coordinates) :
    b.has_cheese pos =
      (b.bits.getD (pos.to_index b.width / 64) 0).testBit (pos.to_index b.width % 64) := by
  unfold CheeseBoard.has_cheese
  exact and_one_shift_ne_zero _ _

theorem word_idx_lt_of_has_cheese {b : CheeseBoard} {pos : Coordinates}
    (h : b.has_cheese pos = true) : pos.to_index b.width / 64 < b.bits.length := by
  by_contra hge
  rw [has_cheese_eq_testBit] at h
  rw [List.getD_eq_getElem?_getD, List.getElem?_eq_none (by omega), Option.getD_none,
    Nat.zero_testBit] at h
  exact Bool.false_ne_true h

theorem mem_cheeseCells (b : CheeseBoard) (i : Nat) :
    i ∈ b.cheeseCells ↔
      i < 64 * b.bits.length ∧ (b.bits.getD (i / 64) 0).testBit (i % 64) := by
  unfold CheeseBoard.cheeseCells
  simp [Finset.mem_filter, Finset.mem_range]

theorem idx_mem_cheeseCells {b : CheeseBoard} {pos : Coordinates}
    (h : b.has_cheese pos = true) : pos.to_index b.width ∈ b.cheeseCells := by
  have hlt := word_idx_lt_of_has_cheese h
  rw [mem_cheeseCells]
  refine ⟨?_, by rw [has_cheese_eq_testBit] at h; exact h⟩
  have := Nat.div_lt_iff_lt_mul (show 0 < 64 by norm_num) |>.mp hlt
  omega

theorem remaining_pos_of_has_cheese {b : CheeseBoard} {pos : Coordinates}
    (hwf : b.WF) (h : b.has_cheese pos = true) : 1 ≤ b.remaining_cheese_count := by
  rw [hwf.2]
  exact Finset.card_pos.mpr ⟨_, idx_mem_cheeseCells h⟩

theorem listSet_getD_self {l : List Nat} {n : Nat} (h : n < l.length) (v : Nat) :
    (l.set n v).getD n 0 = v := by
  rw [List.getD_eq_getElem?_getD, List.getElem?_set_self (by simpa using h)]
  rfl

theorem listSet_getD_ne {l : List Nat} {n i : Nat} (h : n ≠ i) (v : Nat) :
    (l.set n v).getD i 0 = l.getD i 0 := by
  rw [List.getD_eq_getElem?_getD, List.getElem?_set_ne h, ← List.getD_eq_getElem?_getD]

theorem listSet_getD_eq_self {l : List Nat} {n : Nat} (h : n < l.length) :
    l.set n (l.getD n 0) = l := by
  apply List.ext_getElem?
  intro i
  rcases eq_or_ne n i with rfl | hne
  · rw [List.getElem?_set_self (by simpa using h), List.getD_eq_getElem?_getD,
      List.getElem?_eq_getElem h]
    rfl
  · rw [List.getElem?_set_ne hne]

/-- Bits of the complemented single-bit mask. -/
theorem u64Not_testBit (k j : Nat) (hk : k < 64) :
    (u64Not (1 <<< k)).testBit j = (decide (j < 64) && !(decide (j = k))) := by
  unfold u64Not
  have h1 : (1 : Nat) <<< k = 2 ^ k := by rw [Nat.shiftLeft_eq, one_mul]
  rw [h1, Nat.testBit_xor, Nat.testBit_two_pow_sub_one, Nat.testBit_two_pow]
  rcases lt_or_le j 64 with hj | hj
  · rcases eq_or_ne j k with rfl | hne
    · simp [hj]
    · simp [hj, hne, Ne.symm hne]
  · have hne : j ≠ k := by omega
    simp [Nat.not_lt.mpr hj, Ne.symm hne]

theorem or_mask_testBit (w k j : Nat) :
    (w ||| 1 <<< k).testBit j = (w.testBit j || decide (j = k)) := by
  have h1 : (1 : Nat) <<< k = 2 ^ k := by rw [Nat.shiftLeft_eq, one_mul]
  rw [h1, Nat.testBit_or, Nat.testBit_two_pow]
  rcases eq_or_ne j k with rfl | hne
  · simp
  · simp [hne, Ne.symm hne]

theorem and_not_mask_testBit (w k j : Nat) (hk : k < 64) :
    (w &&& u64Not (1 <<< k)).testBit j =
      (w.testBit j && decide (j < 64) && !(decide (j = k))) := by
  rw [Nat.testBit_and, u64Not_testBit k j hk, Bool.and_assoc]

/-- Clearing a set bit and re-setting it restores the `u64` word. -/
theorem word_take_restore (w k : Nat) (hw : w < 2 ^ 64) (hk : k < 64)
    (hbit : w.testBit k = true) : (w &&& u64Not (1 <<< k)) ||| 1 <<< k = w := by
  apply Nat.eq_of_testBit_eq
  intro j
  rw [or_mask_testBit, and_not_mask_testBit _ _ _ hk]
  rcases eq_or_ne j k with rfl | hne
  · simp [hbit]
  · rcases lt_or_le j 64 with hj | hj
    · simp [hne, hj]
    · have hwj : w.testBit j = false :=
        Nat.testBit_lt_two_pow (lt_of_lt_of_le hw (Nat.pow_le_pow_right (by norm_num) hj))
      simp [hne, hwj]

/-- Clearing then re-testing a mask gives zero. -/
theorem and_not_mask_self (w k : Nat) (hk : k < 64) :
    (w &&& u64Not (1 <<< k)) &&& (1 <<< k) = 0 := by
  apply Nat.eq_of_testBit_eq
  intro j
  rw [Nat.testBit_and, and_not_mask_testBit _ _ _ hk, Nat.zero_testBit]
  have h1 : (1 : Nat) <<< k = 2 ^ k := by rw [Nat.shiftLeft_eq, one_mul]
  rw [h1, Nat.testBit_two_pow]
  rcases eq_or_ne j k with rfl | hne
  · simp
  · simp [hne, Ne.symm hne]

/-- The word read after `take_cheese` succeeds at the same cell. -/
theorem take_cheese_spec {b : CheeseBoard} {pos : Coordinates}
    (h : b.has_cheese pos = true) :
    b.take_cheese pos =
      (true,
        { b with
          bits := b.bits.set (pos.to_index b.width / 64)
            (b.bits.getD (pos.to_index b.width / 64) 0 &&&
              u64Not (1 <<< (pos.to_index b.width % 64)))
          remaining_cheese_count := b.remaining_cheese_count - 1 }) := by
  unfold CheeseBoard.take_cheese
  rw [if_pos (by rw [← CheeseBoard.has_cheese]; exact h)]

theorem take_cheese_fail {b : CheeseBoard} {pos : Coordinates}
    (h : b.has_cheese pos = false) : b.take_cheese pos = (false, b) := by
  unfold CheeseBoard.take_cheese
  rw [if_neg (by rw [← CheeseBoard.has_cheese]; simp [h])]

theorem restore_cheese_spec {b : CheeseBoard} {pos : Coordinates}
    (h : b.has_cheese pos = false) :
    b.restore_cheese pos =
      (true,
        { b with
          bits := b.bits.set (pos.to_index b.width / 64)
            (b.bits.getD (pos.to_index b.width / 64) 0 |||
              1 <<< (pos.to_index b.width % 64))
          remaining_cheese_count := b.remaining_cheese_count + 1 }) := by
  unfold CheeseBoard.restore_cheese
  rw [if_neg (by rw [← CheeseBoard.has_cheese]; simp [h])]

/-- After a successful take, the same cell reads empty. -/
theorem has_cheese_take_self {b : CheeseBoard} {pos : Coordinates}
    (h : b.has_cheese pos = true) :
    (b.take_cheese pos).2.has_cheese pos = false := by
  have hlt := word_idx_lt_of_has_cheese h
  rw [take_cheese_spec h]
  unfold CheeseBoard.has_cheese
  simp only
  rw [listSet_getD_self hlt,
    and_not_mask_self _ _ (Nat.mod_lt _ (by norm_num))]
  simp

/-- Taking an existing cheese and then restoring it at the same cell is
the identity on well-formed boards. -/
theorem restore_take {b : CheeseBoard} {pos : Coordinates}
    (hwf : b.WF) (h : b.has_cheese pos = true) :
    ((b.take_cheese pos).2.restore_cheese pos).2 = b := by
  have hlt := word_idx_lt_of_has_cheese h
  have hbit : (b.bits.getD (pos.to_index b.width / 64) 0).testBit
      (pos.to_index b.width % 64) = true := by
    rw [← has_cheese_eq_testBit]; exact h
  have hwlt : b.bits.getD (pos.to_index b.width / 64) 0 < 2 ^ 64 := by
    apply hwf.1
    rw [List.getD_eq_getElem?_getD, List.getElem?_eq_getElem hlt]
    exact List.getElem_mem hlt
  have hrem := remaining_pos_of_has_cheese hwf h
  have hempty := has_cheese_take_self h
  rw [take_cheese_spec h] at hempty ⊢
  rw [restore_cheese_spec hempty]
  simp only [List.length_set] at *
  have hword := word_take_restore (b.bits.getD (pos.to_index b.width / 64) 0)
    (pos.to_index b.width % 64) hwlt (Nat.mod_lt _ (by norm_num)) hbit
  cases b with
  | mk bits width ic rc =>
    simp only at hlt hrem ⊢
    congr 1
    · rw [List.set_set, listSet_getD_self hlt, hword, listSet_getD_eq_self hlt]
    · omega

/-- Taking a cheese erases exactly its cell from the cheese set. -/
theorem cheeseCells_take {b : CheeseBoard} {pos : Coordinates}
    (h : b.has_cheese pos = true) :
    (b.take_cheese pos).2.cheeseCells = b.cheeseCells.erase (pos.to_index b.width) := by
  have hlt := word_idx_lt_of_has_cheese h
  rw [take_cheese_spec h]
  ext i
  rw [Finset.mem_erase, mem_cheeseCells, mem_cheeseCells]
  simp only [List.length_set]
  constructor
  · rintro ⟨hi, hbit⟩
    rcases eq_or_ne (i / 64) (pos.to_index b.width / 64) with heq | hne
    · rw [heq, listSet_getD_self hlt,
        and_not_mask_testBit _ _ _ (Nat.mod_lt _ (by norm_num))] at hbit
      have h1 := (Bool.and_eq_true _ _).mp hbit
      have h2 := (Bool.and_eq_true _ _).mp h1.1
      have hne2 : i % 64 ≠ pos.to_index b.width % 64 := by
        have := h1.2
        simpa using this
      exact ⟨by omega, hi, by rw [heq]; exact h2.1⟩
    · rw [listSet_getD_ne (Ne.symm hne)] at hbit
      refine ⟨by omega, hi, hbit⟩
  · rintro ⟨hne, hi, hbit⟩
    refine ⟨hi, ?_⟩
    rcases eq_or_ne (i / 64) (pos.to_index b.width / 64) with heq | hne2
    · rw [heq, listSet_getD_self hlt,
        and_not_mask_testBit _ _ _ (Nat.mod_lt _ (by norm_num))]
      rw [heq] at hbit
      rw [hbit]
      have hkne : i % 64 ≠ pos.to_index b.width % 64 := by omega
      simp [Nat.mod_lt i (show 0 < 64 by norm_num), hkne]
    · rw [listSet_getD_ne (Ne.symm hne2)]
      exact hbit

/-- `take_cheese` preserves board well-formedness. -/
theorem take_cheese_WF {b : CheeseBoard} (pos : Coordinates) (hwf : b.WF) :
    (b.take_cheese pos).2.WF := by
  cases hh : b.has_cheese pos with
  | false => rw [take_cheese_fail hh]; exact hwf
  | true =>
    constructor
    · rw [take_cheese_spec hh]
      intro w hw
      rcases List.mem_or_eq_of_mem_set hw with hmem | rfl
      · exact hwf.1 w hmem
      · apply Nat.and_lt_two_pow
        apply Nat.xor_lt_two_pow
        · omega
        · have h1 : (1 : Nat) <<< (pos.to_index b.width % 64) =
            2 ^ (pos.to_index b.width % 64) := by rw [Nat.shiftLeft_eq, one_mul]
          rw [h1]
          exact Nat.pow_lt_pow_right (by norm_num) (Nat.mod_lt _ (by norm_num))
    · have hcells := cheeseCells_take hh
      have hmem := idx_mem_cheeseCells hh
      rw [take_cheese_spec hh] at hcells ⊢
      simp only at hcells ⊢
      rw [hcells, Finset.card_erase_of_mem hmem, hwf.2]

/-- Taking at one cell does not change the cheese reading at any other
cell. -/
theorem has_cheese_take_other {b : CheeseBoard} {p q : Coordinates}
    (hne : p.to_index b.width ≠ q.to_index b.width) :
    (b.take_cheese q).2.has_cheese p = b.has_cheese p := by
  cases hh : b.has_cheese q with
  | false => rw [take_cheese_fail hh]
  | true =>
    have hlt := word_idx_lt_of_has_cheese hh
    rw [take_cheese_spec hh]
    rw [has_cheese_eq_testBit, has_cheese_eq_testBit]
    simp only
    rcases eq_or_ne (p.to_index b.width / 64) (q.to_index b.width / 64) with heq | hwne
    · rw [heq, listSet_getD_self hlt,
        and_not_mask_testBit _ _ _ (Nat.mod_lt _ (by norm_num))]
      have hkne : p.to_index b.width % 64 ≠ q.to_index b.width % 64 := by omega
      simp [Nat.mod_lt (p.to_index b.width) (show 0 < 64 by norm_num), hkne, ← heq]
    · rw [listSet_getD_ne (Ne.symm hwne)]

/-- Restoring at one cell does not change the cheese reading at any other
cell. -/
theorem has_cheese_restore_other {b : CheeseBoard} {p q : Coordinates}
    (hne : p.to_index b.width ≠ q.to_index b.width) :
    (b.restore_cheese q).2.has_cheese p = b.has_cheese p := by
  cases hh : b.has_cheese q with
  | true =>
    unfold CheeseBoard.restore_cheese
    rw [if_pos (by rw [← CheeseBoard.has_cheese]; exact hh)]
  | false =>
    rw [restore_cheese_spec hh]
    rw [has_cheese_eq_testBit, has_cheese_eq_testBit]
    simp only
    rcases eq_or_ne (p.to_index b.width / 64) (q.to_index b.width / 64) with heq | hwne
    · rcases lt_or_le (q.to_index b.width / 64) b.bits.length with hlt | hge
      · rw [heq, listSet_getD_self hlt, or_mask_testBit]
        have hkne : p.to_index b.width % 64 ≠ q.to_index b.width % 64 := by omega
        simp [hkne, ← heq]
      · rw [List.set_eq_of_length_le (by omega)]
    · rw [listSet_getD_ne (Ne.symm hwne)]

/-- Board-valued forms of the operation effects. -/
theorem take_cheese_board {b : CheeseBoard} {pos : Coordinates}
    (h : b.has_cheese pos = true) :
    (b.take_cheese pos).2 =
      { b with
        bits := b.bits.set (pos.to_index b.width / 64)
          (b.bits.getD (pos.to_index b.width / 64) 0 &&&
            u64Not (1 <<< (pos.to_index b.width % 64)))
        remaining_cheese_count := b.remaining_cheese_count - 1 } := by
  rw [take_cheese_spec h]

theorem take_cheese_fail_board {b : CheeseBoard} {pos : Coordinates}
    (h : b.has_cheese pos = false) : (b.take_cheese pos).2 = b := by
  rw [take_cheese_fail h]

theorem restore_cheese_board {b : CheeseBoard} {pos : Coordinates}
    (h : b.has_cheese pos = false) :
    (b.restore_cheese pos).2 =
      { b with
        bits := b.bits.set (pos.to_index b.width / 64)
          (b.bits.getD (pos.to_index b.width / 64) 0 |||
            1 <<< (pos.to_index b.width % 64))
        remaining_cheese_count := b.remaining_cheese_count + 1 } := by
  rw [restore_cheese_spec h]

theorem restore_cheese_fail_board {b : CheeseBoard} {pos : Coordinates}
    (h : b.has_cheese pos = true) : (b.restore_cheese pos).2 = b := by
  unfold CheeseBoard.restore_cheese
  rw [if_pos (by rw [← CheeseBoard.has_cheese]; exact h)]

/-- `restore_cheese` at one cell commutes with `take_cheese` at a
different cell. -/
theorem restore_take_comm {b : CheeseBoard} {p q : Coordinates}
    (hne : p.to_index b.width ≠ q.to_index b.width)
    (hrem : b.has_cheese q = true → 1 ≤ b.remaining_cheese_count) :
    ((b.take_cheese q).2.restore_cheese p).2 =
      ((b.restore_cheese p).2.take_cheese q).2 := by
  cases hq : b.has_cheese q with
  | false =>
    rw [take_cheese_fail_board hq]
    cases hp : b.has_cheese p with
    | true =>
      rw [restore_cheese_fail_board hp, take_cheese_fail_board hq]
    | false =>
      have hq' : (b.restore_cheese p).2.has_cheese q = false := by
        rw [has_cheese_restore_other (Ne.symm hne)]; exact hq
      rw [take_cheese_fail_board hq']
  | true =>
    have hlt := word_idx_lt_of_has_cheese hq
    have hp' : (b.take_cheese q).2.has_cheese p = b.has_cheese p :=
      has_cheese_take_other hne
    cases hp : b.has_cheese p with
    | true =>
      rw [hp] at hp'
      rw [restore_cheese_fail_board hp', restore_cheese_fail_board hp]
    | false =>
      rw [hp] at hp'
      have hq' : (b.restore_cheese p).2.has_cheese q = true := by
        rw [has_cheese_restore_other (Ne.symm hne)]; exact hq
      have hr := hrem hq
      rw [take_cheese_board hq] at hp' ⊢
      rw [restore_cheese_board hp'] -- left side, acting on the taken board
      rw [restore_cheese_board hp] at hq' ⊢
      rw [take_cheese_board hq']    -- right side, acting on the restored board
      dsimp only
      rcases eq_or_ne (p.to_index b.width / 64) (q.to_index b.width / 64) with heq | hwne
      · -- same word, different bit
        have hkne : p.to_index b.width % 64 ≠ q.to_index b.width % 64 := by omega
        congr 1
        · rw [heq, listSet_getD_self hlt, listSet_getD_self (by simpa using hlt),
            List.set_set, List.set_set]
          congr 1
          apply Nat.eq_of_testBit_eq
          intro j
          rw [or_mask_testBit,
            and_not_mask_testBit _ _ _ (Nat.mod_lt _ (by norm_num)),
            and_not_mask_testBit _ _ _ (Nat.mod_lt _ (by norm_num)),
            or_mask_testBit]
          rcases eq_or_ne j (p.to_index b.width % 64) with rfl | hjp
          · have hj64 : p.to_index b.width % 64 < 64 := Nat.mod_lt _ (by norm_num)
            simp [hj64, hkne]
          · simp [hjp]
        · omega
      · -- different words: the two `set`s commute
        congr 1
        · rw [listSet_getD_ne (Ne.symm hwne), listSet_getD_ne hwne,
            List.set_comm _ _ _ hwne]
        · omega

end CheeseBoardLemmas

/-! ## Game state machine (`game.rs`) -/

/-- `PlayerState`.  `score` holds the `f32` score in half-point units
(every engine score is an exact multiple of `0.5`; see the header). -/
@[ext]
structure PlayerState where
  current_pos : Coordinates
  target_pos : Coordinates
  mud_timer : Nat
  score : Nat
  misses : Nat
deriving DecidableEq, Repr

/-- The `f32` value represented by a player's score field. -/
def PlayerState.scoreQ (p : PlayerState) : ℚ := (p.score : ℚ) / 2

/-- `PlayerState::is_in_mud`. -/
def PlayerState.is_in_mud (p : PlayerState) : Bool := p.mud_timer > 0

/-- `PlayerState::can_collect_cheese`. -/
def PlayerState.can_collect_cheese (p : PlayerState) : Bool := !p.is_in_mud

/-- The `HashMap<(Coordinates, Coordinates), u8>` of mud costs, modelled
by its `get`. -/
def MudMap : Type := Coordinates → Coordinates → Option Nat

/-- `GameState`. -/
@[ext]
structure GameState where
  width : Nat
  height : Nat
  move_table : MoveTable
  player1 : PlayerState
  player2 : PlayerState
  mud : MudMap
  cheese : CheeseBoard
  turn : Nat
  max_turns : Nat

/-- `MoveUndo`. -/
structure MoveUndo where
  p1_pos : Coordinates
  p1_target : Coordinates
  p1_mud : Nat
  p1_score : Nat
  p1_misses : Nat
  p2_pos : Coordinates
  p2_target : Coordinates
  p2_mud : Nat
  p2_score : Nat
  p2_misses : Nat
  collected_cheese : List Coordinates
  turn : Nat
deriving DecidableEq, Repr

/-- `TurnResult` (scores again in half-point units). -/
structure TurnResult where
  p1_moved : Bool
  p2_moved : Bool
  game_over : Bool
  p1_score : Nat
  p2_score : Nat
  collected_cheese : List Coordinates
deriving DecidableEq, Repr

/-- `GameState::compute_player_move`. -/
def GameState.compute_player_move (g : GameState) (player : PlayerState)
    (move_dir : Direction) : Bool × Coordinates :=
  if player.is_in_mud then (false, player.current_pos)
  else if move_dir = .Stay then (false, player.current_pos)
  else if !(g.move_table.is_move_valid player.current_pos move_dir) then
    (false, player.current_pos)
  else (true, move_dir.apply_to player.current_pos)

/-- The per-player state update of `process_moves` (the source repeats
this block verbatim for player 1 and player 2). -/
def movePhasePlayer (mud : MudMap) (p : PlayerState) (moved : Bool)
    (new_pos : Coordinates) : PlayerState :=
  if p.mud_timer > 0 then
    -- in mud: decrement, complete the move when the timer hits 0
    if p.mud_timer - 1 = 0 then
      { p with mud_timer := p.mud_timer - 1, current_pos := p.target_pos }
    else { p with mud_timer := p.mud_timer - 1 }
  else if moved then
    let mud_time := (mud p.current_pos new_pos).getD 0
    if mud_time > 1 then
      { p with mud_timer := mud_time, target_pos := new_pos }
    else
      { p with mud_timer := mud_time, current_pos := new_pos, target_pos := new_pos }
  else p

/-- The "process any remaining movement" safety net of `process_moves`. -/
def settlePlayer (p : PlayerState) : PlayerState :=
  if p.mud_timer = 0 ∧ p.current_pos ≠ p.target_pos then
    { p with current_pos := p.target_pos }
  else p

/-- The miss accounting at the end of `process_moves`. -/
def missPlayer (p : PlayerState) (start_pos : Coordinates) : PlayerState :=
  if p.current_pos ≠ start_pos then p else { p with misses := p.misses + 1 }

/-- `GameState::process_moves`; also returns `(p1_has_moved, p2_has_moved)`. -/
def GameState.process_moves (g : GameState) (p1_move p2_move : Direction) :
    GameState × Bool × Bool :=
  let p1_start_pos := g.player1.current_pos
  let p2_start_pos := g.player2.current_pos
  let m1 := g.compute_player_move g.player1 p1_move
  let m2 := g.compute_player_move g.player2 p2_move
  let p1 := settlePlayer (movePhasePlayer g.mud g.player1 m1.1 m1.2)
  let p2 := settlePlayer (movePhasePlayer g.mud g.player2 m2.1 m2.2)
  ({ g with player1 := missPlayer p1 p1_start_pos, player2 := missPlayer p2 p2_start_pos },
    decide (p1.current_pos ≠ p1_start_pos), decide (p2.current_pos ≠ p2_start_pos))

/-- `GameState::process_cheese_collection`. -/
def GameState.process_cheese_collection (g : GameState) : GameState × List Coordinates :=
  if g.player1.can_collect_cheese && g.player2.can_collect_cheese &&
      (g.player1.current_pos == g.player2.current_pos) then
    -- simultaneous collection
    let r := g.cheese.take_cheese g.player1.current_pos
    if r.1 then
      ({ g with
          cheese := r.2
          player1 := { g.player1 with score := g.player1.score + 1 }
          player2 := { g.player2 with score := g.player2.score + 1 } },
        [g.player1.current_pos])
    else ({ g with cheese := r.2 }, [])
  else
    -- individual collections
    let s1 :=
      if g.player1.can_collect_cheese then
        let r := g.cheese.take_cheese g.player1.current_pos
        if r.1 then
          ({ g with
              cheese := r.2
              player1 := { g.player1 with score := g.player1.score + 2 } },
            [g.player1.current_pos])
        else ({ g with cheese := r.2 }, ([] : List Coordinates))
      else (g, [])
    let g1 := s1.1
    if g1.player2.can_collect_cheese then
      let r := g1.cheese.take_cheese g1.player2.current_pos
      if r.1 then
        ({ g1 with
            cheese := r.2
            player2 := { g1.player2 with score := g1.player2.score + 2 } },
          s1.2 ++ [g1.player2.current_pos])
      else ({ g1 with cheese := r.2 }, s1.2)
    else (g1, s1.2)

/-- `GameState::check_game_over`.  The source compares `f32` scores with
`total_cheese as f32 / 2.0`; in half-point units `score / 2 > total / 2`
is exactly `score > total` (all values exact, see the header). -/
def GameState.check_game_over (g : GameState) : Bool :=
  if g.player1.score > g.cheese.total_cheese ∨
      g.player2.score > g.cheese.total_cheese then true
  else if g.cheese.remaining_cheese = 0 ∧ g.cheese.total_cheese > 0 then true
  else decide (g.turn ≥ g.max_turns)

/-- `GameState::process_turn`. -/
def GameState.process_turn (g : GameState) (p1_move p2_move : Direction) :
    GameState × TurnResult :=
  let mv := g.process_moves p1_move p2_move
  let cc := mv.1.process_cheese_collection
  let g2 := { cc.1 with turn := cc.1.turn + 1 }
  (g2,
    { p1_moved := mv.2.1
      p2_moved := mv.2.2
      game_over := g2.check_game_over
      p1_score := g2.player1.score
      p2_score := g2.player2.score
      collected_cheese := cc.2 })

/-- `GameState::make_move`: snapshot, then `process_turn`, then attach
the collected cheese. -/
def GameState.make_move (g : GameState) (p1_move p2_move : Direction) :
    GameState × MoveUndo :=
  let r := g.process_turn p1_move p2_move
  (r.1,
    { p1_pos := g.player1.current_pos
      p1_target := g.player1.target_pos
      p1_mud := g.player1.mud_timer
      p1_score := g.player1.score
      p1_misses := g.player1.misses
      p2_pos := g.player2.current_pos
      p2_target := g.player2.target_pos
      p2_mud := g.player2.mud_timer
      p2_score := g.player2.score
      p2_misses := g.player2.misses
      collected_cheese := r.2.collected_cheese
      turn := g.turn })

/-- `GameState::unmake_move`. -/
def GameState.unmake_move (g : GameState) (undo : MoveUndo) : GameState :=
  { g with
    cheese := undo.collected_cheese.foldl
      (fun cb pos => (cb.restore_cheese pos).2) g.cheese
    player1 :=
      { current_pos := undo.p1_pos
        target_pos := undo.p1_target
        mud_timer := undo.p1_mud
        score := undo.p1_score
        misses := undo.p1_misses }
    player2 :=
      { current_pos := undo.p2_pos
        target_pos := undo.p2_target
        mud_timer := undo.p2_mud
        score := undo.p2_score
        misses := undo.p2_misses }
    turn := undo.turn }

section CollectionLemmas

/-- A cheese reading depends only on the linear index. -/
theorem has_cheese_congr_idx {b : CheeseBoard} {p q : Coordinates}
    (h : p.to_index b.width = q.to_index b.width) :
    b.has_cheese p = b.has_cheese q := by
  unfold CheeseBoard.has_cheese
  rw [h]

/-- The cheese phase only changes the cheese board and the two scores:
positions, targets, timers, misses, the turn counter and every static
field are untouched. -/
theorem collection_shape (g : GameState) :
    ∃ b s1 s2,
      (g.process_cheese_collection).1 =
        { g with
          cheese := b
          player1 := { g.player1 with score := s1 }
          player2 := { g.player2 with score := s2 } } := by
  unfold GameState.process_cheese_collection
  rcases hcc : (g.player1.can_collect_cheese && g.player2.can_collect_cheese &&
      (g.player1.current_pos == g.player2.current_pos)) with _ | _
  · simp only [hcc, Bool.false_eq_true, if_false]
    rcases h1 : g.player1.can_collect_cheese with _ | _
    · simp only [h1, Bool.false_eq_true, if_false]
      rcases h2 : g.player2.can_collect_cheese with _ | _
      · simp only [h2, Bool.false_eq_true, if_false]
        exact ⟨g.cheese, g.player1.score, g.player2.score, rfl⟩
      · simp only [h2, if_true]
        rcases hr2 : (g.cheese.take_cheese g.player2.current_pos).1 with _ | _
        · simp only [hr2, Bool.false_eq_true, if_false]
          exact ⟨_, g.player1.score, g.player2.score, rfl⟩
        · simp only [hr2, if_true]
          exact ⟨_, g.player1.score, g.player2.score + 2, rfl⟩
    · simp only [h1, if_true]
      rcases hr1 : (g.cheese.take_cheese g.player1.current_pos).1 with _ | _
      · simp only [hr1, Bool.false_eq_true, if_false]
        rcases h2 : g.player2.can_collect_cheese with _ | _
        · simp only [h2, Bool.false_eq_true, if_false]
          exact ⟨_, g.player1.score, g.player2.score, rfl⟩
        · simp only [h2, if_true]
          rcases hr2 : ((g.cheese.take_cheese g.player1.current_pos).2.take_cheese
              g.player2.current_pos).1 with _ | _
          · simp only [hr2, Bool.false_eq_true, if_false]
            exact ⟨_, g.player1.score, g.player2.score, rfl⟩
          · simp only [hr2, if_true]
            exact ⟨_, g.player1.score, g.player2.score + 2, rfl⟩
      · simp only [hr1, if_true]
        rcases h2 : g.player2.can_collect_cheese with _ | _
        · simp only [h2, Bool.false_eq_true, if_false]
          exact ⟨_, g.player1.score + 2, g.player2.score, rfl⟩
        · simp only [h2, if_true]
          rcases hr2 : ((g.cheese.take_cheese g.player1.current_pos).2.take_cheese
              g.player2.current_pos).1 with _ | _
          · simp only [hr2, Bool.false_eq_true, if_false]
            exact ⟨_, g.player1.score + 2, g.player2.score, rfl⟩
          · simp only [hr2, if_true]
            exact ⟨_, g.player1.score + 2, g.player2.score + 2, rfl⟩
  · simp only [hcc, if_true]
    rcases hr : (g.cheese.take_cheese g.player1.current_pos).1 with _ | _
    · simp only [hr, Bool.false_eq_true, if_false]
      exact ⟨_, g.player1.score, g.player2.score, rfl⟩
    · simp only [hr, if_true]
      exact ⟨_, g.player1.score + 1, g.player2.score + 1, rfl⟩

theorem take_cheese_fst (b : CheeseBoard) (pos : Coordinates) :
    (b.take_cheese pos).1 = b.has_cheese pos := by
  cases hh : b.has_cheese pos
  · rw [take_cheese_fail hh]
  · rw [take_cheese_spec hh]

theorem take_cheese_width (b : CheeseBoard) (pos : Coordinates) :
    (b.take_cheese pos).2.width = b.width := by
  cases hh : b.has_cheese pos
  · rw [take_cheese_fail_board hh]
  · rw [take_cheese_board hh]

/-- What the cheese phase does to the board: nothing, one take, or two
takes at cells that were occupied when taken. -/
theorem collection_cases (g : GameState) :
    ((g.process_cheese_collection).2 = [] ∧
      (g.process_cheese_collection).1.cheese = g.cheese) ∨
    (∃ p, (g.process_cheese_collection).2 = [p] ∧
      g.cheese.has_cheese p = true ∧
      (g.process_cheese_collection).1.cheese = (g.cheese.take_cheese p).2) ∨
    (∃ p q, (g.process_cheese_collection).2 = [p, q] ∧
      g.cheese.has_cheese p = true ∧
      (g.cheese.take_cheese p).2.has_cheese q = true ∧
      (g.process_cheese_collection).1.cheese =
        ((g.cheese.take_cheese p).2.take_cheese q).2) := by
  unfold GameState.process_cheese_collection
  rcases hcc : (g.player1.can_collect_cheese && g.player2.can_collect_cheese &&
      (g.player1.current_pos == g.player2.current_pos)) with _ | _
  · simp only [hcc, Bool.false_eq_true, if_false]
    rcases h1 : g.player1.can_collect_cheese with _ | _
    · simp only [h1, Bool.false_eq_true, if_false]
      rcases h2 : g.player2.can_collect_cheese with _ | _
      · simp only [h2, Bool.false_eq_true, if_false]
        exact Or.inl ⟨trivial, trivial⟩
      · simp only [h2, if_true]
        rcases hr2 : (g.cheese.take_cheese g.player2.current_pos).1 with _ | _
        · simp only [hr2, Bool.false_eq_true, if_false]
          rw [take_cheese_fst] at hr2
          exact Or.inl ⟨trivial, take_cheese_fail_board hr2⟩
        · simp only [hr2, if_true]
          rw [take_cheese_fst] at hr2
          exact Or.inr (Or.inl ⟨g.player2.current_pos, rfl, hr2, rfl⟩)
    · simp only [h1, if_true]
      rcases hr1 : (g.cheese.take_cheese g.player1.current_pos).1 with _ | _
      · simp only [hr1, Bool.false_eq_true, if_false]
        rw [take_cheese_fst] at hr1
        have hb1 := take_cheese_fail_board hr1
        rcases h2 : g.player2.can_collect_cheese with _ | _
        · simp only [h2, Bool.false_eq_true, if_false]
          exact Or.inl ⟨trivial, hb1⟩
        · simp only [h2, if_true]
          rcases hr2 : ((g.cheese.take_cheese g.player1.current_pos).2.take_cheese
              g.player2.current_pos).1 with _ | _
          · simp only [hr2, Bool.false_eq_true, if_false]
            rw [take_cheese_fst, hb1] at hr2
            rw [hb1]
            exact Or.inl ⟨trivial, take_cheese_fail_board hr2⟩
          · simp only [hr2, if_true]
            rw [take_cheese_fst, hb1] at hr2
            rw [hb1]
            exact Or.inr (Or.inl ⟨g.player2.current_pos, rfl, hr2, rfl⟩)
      · simp only [hr1, if_true]
        rw [take_cheese_fst] at hr1
        rcases h2 : g.player2.can_collect_cheese with _ | _
        · simp only [h2, Bool.false_eq_true, if_false]
          exact Or.inr (Or.inl ⟨g.player1.current_pos, rfl, hr1, rfl⟩)
        · simp only [h2, if_true]
          rcases hr2 : ((g.cheese.take_cheese g.player1.current_pos).2.take_cheese
              g.player2.current_pos).1 with _ | _
          · simp only [hr2, Bool.false_eq_true, if_false]
            rw [take_cheese_fst] at hr2
            exact Or.inr (Or.inl ⟨g.player1.current_pos, rfl, hr1,
              (take_cheese_fail_board hr2).symm ▸ rfl⟩)
          · simp only [hr2, if_true]
            rw [take_cheese_fst] at hr2
            exact Or.inr (Or.inr ⟨g.player1.current_pos, g.player2.current_pos,
              rfl, hr1, hr2, rfl⟩)
  · simp only [hcc, if_true]
    rcases hr : (g.cheese.take_cheese g.player1.current_pos).1 with _ | _
    · simp only [hr, Bool.false_eq_true, if_false]
      rw [take_cheese_fst] at hr
      exact Or.inl ⟨trivial, take_cheese_fail_board hr⟩
    · simp only [hr, if_true]
      rw [take_cheese_fst] at hr
      exact Or.inr (Or.inl ⟨g.player1.current_pos, rfl, hr, rfl⟩)

/-- Restoring the collected cheese in order undoes the cheese phase. -/
theorem collection_restore (g : GameState) (hwf : g.cheese.WF) :
    (g.process_cheese_collection).2.foldl
      (fun cb pos => (cb.restore_cheese pos).2)
      (g.process_cheese_collection).1.cheese = g.cheese := by
  rcases collection_cases g with ⟨hC, hb⟩ | ⟨p, hC, hp, hb⟩ | ⟨p, q, hC, hp, hq, hb⟩
  · rw [hC, hb]
    rfl
  · rw [hC, hb]
    simp only [List.foldl_cons, List.foldl_nil]
    exact restore_take hwf hp
  · rw [hC, hb]
    simp only [List.foldl_cons, List.foldl_nil]
    -- the two collected cells have distinct indices
    have hwidth : (g.cheese.take_cheese p).2.width = g.cheese.width :=
      take_cheese_width _ _
    have hne : p.to_index g.cheese.width ≠ q.to_index g.cheese.width := by
      intro heq
      have hcongr : (g.cheese.take_cheese p).2.has_cheese q =
          (g.cheese.take_cheese p).2.has_cheese p :=
        has_cheese_congr_idx (by rw [hwidth, heq])
      rw [hcongr, has_cheese_take_self hp] at hq
      exact Bool.false_ne_true hq
    have hq0 : g.cheese.has_cheese q = true := by
      rw [← has_cheese_take_other (b := g.cheese) (p := q) (q := p) (Ne.symm hne)]
      exact hq
    have hwf1 : (g.cheese.take_cheese p).2.WF := take_cheese_WF p hwf
    have hrem1 : (g.cheese.take_cheese p).2.has_cheese q = true →
        1 ≤ (g.cheese.take_cheese p).2.remaining_cheese_count :=
      fun hh => remaining_pos_of_has_cheese hwf1 hh
    have hcomm := restore_take_comm
      (b := (g.cheese.take_cheese p).2) (p := p) (q := q)
      (by rw [hwidth]; exact hne) hrem1
    rw [hcomm, restore_take hwf hp, restore_take hwf hq0]

/-- The cheese phase preserves board well-formedness. -/
theorem collection_cheese_WF (g : GameState) (hwf : g.cheese.WF) :
    (g.process_cheese_collection).1.cheese.WF := by
  rcases collection_cases g with ⟨_, hb⟩ | ⟨p, _, _, hb⟩ | ⟨p, q, _, _, _, hb⟩
  · rw [hb]; exact hwf
  · rw [hb]; exact take_cheese_WF p hwf
  · rw [hb]; exact take_cheese_WF q (take_cheese_WF p hwf)

end CollectionLemmas

section RoundTrip

/-- `process_turn` preserves cheese-board well-formedness. -/
theorem process_turn_cheese_WF (g : GameState) (d1 d2 : Direction)
    (hwf : g.cheese.WF) : (g.process_turn d1 d2).1.cheese.WF :=
  collection_cheese_WF (g.process_moves d1 d2).1 hwf

theorem make_move_fst (g : GameState) (d1 d2 : Direction) :
    (g.make_move d1 d2).1 = (g.process_turn d1 d2).1 := rfl

theorem process_turn_fst (g : GameState) (d1 d2 : Direction) :
    (g.process_turn d1 d2).1 =
      { ((g.process_moves d1 d2).1.process_cheese_collection).1 with
        turn := ((g.process_moves d1 d2).1.process_cheese_collection).1.turn + 1 } := rfl

theorem make_move_snd (g : GameState) (d1 d2 : Direction) :
    (g.make_move d1 d2).2 =
      { p1_pos := g.player1.current_pos
        p1_target := g.player1.target_pos
        p1_mud := g.player1.mud_timer
        p1_score := g.player1.score
        p1_misses := g.player1.misses
        p2_pos := g.player2.current_pos
        p2_target := g.player2.target_pos
        p2_mud := g.player2.mud_timer
        p2_score := g.player2.score
        p2_misses := g.player2.misses
        collected_cheese := ((g.process_moves d1 d2).1.process_cheese_collection).2
        turn := g.turn } := rfl

theorem unmake_move_eq (g : GameState) (undo : MoveUndo) :
    g.unmake_move undo =
      { g with
        cheese := undo.collected_cheese.foldl
          (fun cb pos => (cb.restore_cheese pos).2) g.cheese
        player1 :=
          { current_pos := undo.p1_pos, target_pos := undo.p1_target,
            mud_timer := undo.p1_mud, score := undo.p1_score, misses := undo.p1_misses }
        player2 :=
          { current_pos := undo.p2_pos, target_pos := undo.p2_target,
            mud_timer := undo.p2_mud, score := undo.p2_score, misses := undo.p2_misses }
        turn := undo.turn } := rfl

/-- One `make_move` followed by its `unmake_move` is the identity (the
hypothesis is the cheese board's counters-match-bits invariant, which
holds for every board the engine builds). -/
theorem unmake_make (g : GameState) (d1 d2 : Direction) (hwf : g.cheese.WF) :
    (g.make_move d1 d2).1.unmake_move (g.make_move d1 d2).2 = g := by
  obtain ⟨b, s1, s2, hshape⟩ := collection_shape (g.process_moves d1 d2).1
  have hrest := collection_restore (g.process_moves d1 d2).1 hwf
  rw [make_move_snd, make_move_fst, process_turn_fst, unmake_move_eq]
  dsimp only
  rw [hrest, hshape]
  rfl

/-- Play a list of direction pairs with `make_move`, collecting the undo
records in order. -/
def makeMoves : GameState → List (Direction × Direction) → GameState × List MoveUndo
  | g, [] => (g, [])
  | g, m :: rest =>
    let r := g.make_move m.1 m.2
    let rr := makeMoves r.1 rest
    (rr.1, r.2 :: rr.2)

/-- Apply `unmake_move` for each record in the given order. -/
def unmakeMoves (g : GameState) (undos : List MoveUndo) : GameState :=
  undos.foldl GameState.unmake_move g

end RoundTrip

/-! ## Concrete fixtures used by witnesses and counterexamples -/

/-- An empty wall map. -/
def noWalls : WallMap := fun _ => none

/-- An empty mud map. -/
def noMud : MudMap := fun _ _ => none

/-- Mud of cost 2 on the edge `(1,1) -> (1,2)` (scenario S3/S6). -/
def exMud : MudMap := fun a b => if a = ⟨1, 1⟩ ∧ b = ⟨1, 2⟩ then some 2 else none

/-- A 3x3 board with one cheese at `(1,2)`. -/
def exBoard : CheeseBoard := ((CheeseBoard.new 3 3).place_cheese ⟨1, 2⟩).2

/-- A 3x3 game: player 1 at `(1,1)` next to the mud edge, player 2 at
`(0,0)`, one cheese at the mud exit `(1,2)`. -/
def exGame : GameState :=
  { width := 3
    height := 3
    move_table := MoveTable.new 3 3 noWalls
    player1 := ⟨⟨1, 1⟩, ⟨1, 1⟩, 0, 0, 0⟩
    player2 := ⟨⟨0, 0⟩, ⟨0, 0⟩, 0, 0, 0⟩
    mud := exMud
    cheese := exBoard
    turn := 0
    max_turns := 300 }

/-! ## Claim C1 -/

/-- C1: make/unmake round-trip law.  For every game state (with the
cheese board's counters-match-bits invariant of the data model) and every
finite sequence of direction pairs, making each move in order and then
unmaking the returned undo records in LIFO order restores the state
identically in every field: both players' `current_pos`, `target_pos`,
`mud_timer`, `score` and `misses`, the turn counter, and the cheese
board's bit set, remaining count and initial count (state equality covers
every field of the model). -/
theorem c1_make_unmake_roundtrip (g : GameState)
    (ms : List (Direction × Direction)) (hwf : g.cheese.WF) :
    unmakeMoves (makeMoves g ms).1 (makeMoves g ms).2.reverse = g := by
  induction ms generalizing g with
  | nil => rfl
  | cons m rest ih =>
    show unmakeMoves (makeMoves (g.make_move m.1 m.2).1 rest).1
        ((g.make_move m.1 m.2).2 ::
          (makeMoves (g.make_move m.1 m.2).1 rest).2).reverse = g
    rw [List.reverse_cons]
    unfold unmakeMoves
    rw [List.foldl_append]
    have hwf' : (g.make_move m.1 m.2).1.cheese.WF :=
      process_turn_cheese_WF g m.1 m.2 hwf
    have ihh := ih (g.make_move m.1 m.2).1 hwf'
    unfold unmakeMoves at ihh
    rw [ihh]
    simp only [List.foldl_cons, List.foldl_nil]
    exact unmake_make g m.1 m.2 hwf

/-- Witness for C1: a three-turn S6-style sequence (enter mud, wait,
exit and collect the cheese) on a concrete game, round-tripped. -/
theorem c1_make_unmake_roundtrip_witness :
    exGame.cheese.WF ∧
      unmakeMoves
        (makeMoves exGame [(.Up, .Stay), (.Stay, .Stay), (.Stay, .Stay)]).1
        (makeMoves exGame [(.Up, .Stay), (.Stay, .Stay), (.Stay, .Stay)]).2.reverse =
        exGame :=
  ⟨by decide,
    c1_make_unmake_roundtrip exGame [(.Up, .Stay), (.Stay, .Stay), (.Stay, .Stay)]
      (by decide)⟩

/-! ## Claim C4 -/

theorem take_cheese_initial (b : CheeseBoard) (pos : Coordinates) :
    (b.take_cheese pos).2.initial_cheese_count = b.initial_cheese_count := by
  cases hh : b.has_cheese pos
  · rw [take_cheese_fail_board hh]
  · rw [take_cheese_board hh]

/-- `process_turn` leaves the dimensions, tables, mud, `max_turns` and
the initial cheese count unchanged. -/
theorem process_turn_statics (g : GameState) (d1 d2 : Direction) :
    (g.process_turn d1 d2).1.max_turns = g.max_turns ∧
    (g.process_turn d1 d2).1.width = g.width ∧
    (g.process_turn d1 d2).1.height = g.height ∧
    (g.process_turn d1 d2).1.move_table = g.move_table ∧
    (g.process_turn d1 d2).1.mud = g.mud ∧
    (g.process_turn d1 d2).1.cheese.total_cheese = g.cheese.total_cheese := by
  obtain ⟨b, s1, s2, hshape⟩ := collection_shape (g.process_moves d1 d2).1
  have htot :
      ((g.process_moves d1 d2).1.process_cheese_collection).1.cheese.total_cheese =
        g.cheese.total_cheese := by
    rcases collection_cases (g.process_moves d1 d2).1 with
      ⟨_, hb⟩ | ⟨p, _, _, hb⟩ | ⟨p, q, _, _, _, hb⟩
    · rw [hb]
      rfl
    · rw [hb]
      exact take_cheese_initial _ _
    · rw [hb]
      exact (take_cheese_initial _ _).trans (take_cheese_initial _ _)
  rw [process_turn_fst]
  refine ⟨?_, ?_, ?_, ?_, ?_, htot⟩ <;> (rw [hshape]; rfl)

/-- Scores in half-point units compare like the `f32` halves. -/
theorem half_lt_half_iff (a b : Nat) : ((b : ℚ) / 2 < (a : ℚ) / 2) ↔ b < a := by
  rw [div_lt_div_right (by norm_num : (0 : ℚ) < 2), Nat.cast_lt]

/-- `check_game_over`, restated over the `f32` score values. -/
theorem check_game_over_iff (s : GameState) :
    (s.check_game_over = true ↔
      (s.player1.scoreQ > (s.cheese.total_cheese : ℚ) / 2 ∨
       s.player2.scoreQ > (s.cheese.total_cheese : ℚ) / 2 ∨
       (s.cheese.remaining_cheese = 0 ∧ 0 < s.cheese.total_cheese) ∨
       s.turn ≥ s.max_turns)) := by
  have hb : (s.check_game_over = true ↔
      (s.cheese.total_cheese < s.player1.score ∨
       s.cheese.total_cheese < s.player2.score ∨
       (s.cheese.remaining_cheese = 0 ∧ 0 < s.cheese.total_cheese) ∨
       s.max_turns ≤ s.turn)) := by
    unfold GameState.check_game_over
    by_cases h1 : s.player1.score > s.cheese.total_cheese ∨
        s.player2.score > s.cheese.total_cheese
    · simp only [h1, if_true]
      rcases h1 with h1 | h1
      · simp [h1]
      · simp [h1]
    · simp only [h1, if_false]
      by_cases h2 : s.cheese.remaining_cheese = 0 ∧ 0 < s.cheese.total_cheese
      · simp [h2]
      · simp only [h2, if_false, decide_eq_true_eq, ge_iff_le]
        push_neg at h1
        constructor
        · intro h
          exact Or.inr (Or.inr (Or.inr h))
        · rintro (h | h | h | h)
          · omega
          · omega
          · exact h.elim
          · exact h
  rw [hb]
  unfold PlayerState.scoreQ
  rw [gt_iff_lt, gt_iff_lt, half_lt_half_iff, half_lt_half_iff, ge_iff_le]

/-- C4: after every `process_turn` call (which increments the turn
counter before the check), the returned `game_over` flag is true iff
`p1_score > initial_cheese / 2`, or `p2_score > initial_cheese / 2`, or
(`remaining_cheese = 0` and `initial_cheese > 0`), or `turn ≥ max_turns`
— with strict `>` on the score comparisons, so an exactly even split
never ends the game on score.  The last two conjuncts pin the initial
count and `max_turns` to the pre-turn game's values. -/
theorem c4_game_over_iff (g : GameState) (d1 d2 : Direction) :
    ((g.process_turn d1 d2).2.game_over = true ↔
      ((g.process_turn d1 d2).1.player1.scoreQ >
          ((g.cheese.total_cheese : ℚ) / 2) ∨
       (g.process_turn d1 d2).1.player2.scoreQ >
          ((g.cheese.total_cheese : ℚ) / 2) ∨
       ((g.process_turn d1 d2).1.cheese.remaining_cheese = 0 ∧
          0 < g.cheese.total_cheese) ∨
       (g.process_turn d1 d2).1.turn ≥ g.max_turns)) ∧
    (g.process_turn d1 d2).1.cheese.total_cheese = g.cheese.total_cheese ∧
    (g.process_turn d1 d2).1.max_turns = g.max_turns := by
  obtain ⟨hmax, _, _, _, _, htot⟩ := process_turn_statics g d1 d2
  refine ⟨?_, htot, hmax⟩
  have h := check_game_over_iff (g.process_turn d1 d2).1
  rw [htot, hmax] at h
  exact h

/-! ## Claim C10 -/

theorem missPlayer_current (p : PlayerState) (s : Coordinates) :
    (missPlayer p s).current_pos = p.current_pos := by
  unfold missPlayer
  split <;> rfl

theorem process_moves_player1 (g : GameState) (d1 d2 : Direction) :
    (g.process_moves d1 d2).1.player1 =
      missPlayer
        (settlePlayer (movePhasePlayer g.mud g.player1
          (g.compute_player_move g.player1 d1).1
          (g.compute_player_move g.player1 d1).2))
        g.player1.current_pos := rfl

theorem process_moves_player2 (g : GameState) (d1 d2 : Direction) :
    (g.process_moves d1 d2).1.player2 =
      missPlayer
        (settlePlayer (movePhasePlayer g.mud g.player2
          (g.compute_player_move g.player2 d2).1
          (g.compute_player_move g.player2 d2).2))
        g.player2.current_pos := rfl

theorem process_moves_moved (g : GameState) (d1 d2 : Direction) :
    (g.process_moves d1 d2).2.1 =
      decide ((g.process_moves d1 d2).1.player1.current_pos ≠
        g.player1.current_pos) ∧
    (g.process_moves d1 d2).2.2 =
      decide ((g.process_moves d1 d2).1.player2.current_pos ≠
        g.player2.current_pos) := by
  constructor
  · rw [process_moves_player1, missPlayer_current]
    rfl
  · rw [process_moves_player2, missPlayer_current]
    rfl

/-- C10: the `TurnResult` flags `p1_moved` / `p2_moved` are true exactly
when that player's `current_pos` at the end of the turn differs from its
value at the start of the turn (hence false for `Stay`, wall or boundary
collisions and mud ticks that leave the timer positive, and true on the
turn a mud traversal commits). -/
theorem c10_moved_flags (g : GameState) (d1 d2 : Direction) :
    ((g.process_turn d1 d2).2.p1_moved = true ↔
      (g.process_turn d1 d2).1.player1.current_pos ≠ g.player1.current_pos) ∧
    ((g.process_turn d1 d2).2.p2_moved = true ↔
      (g.process_turn d1 d2).1.player2.current_pos ≠ g.player2.current_pos) := by
  obtain ⟨b, s1, s2, hshape⟩ := collection_shape (g.process_moves d1 d2).1
  have hpos1 : (g.process_turn d1 d2).1.player1.current_pos =
      (g.process_moves d1 d2).1.player1.current_pos := by
    rw [process_turn_fst, hshape]
  have hpos2 : (g.process_turn d1 d2).1.player2.current_pos =
      (g.process_moves d1 d2).1.player2.current_pos := by
    rw [process_turn_fst, hshape]
  obtain ⟨hm1, hm2⟩ := process_moves_moved g d1 d2
  constructor
  · show (g.process_moves d1 d2).2.1 = true ↔ _
    rw [hm1, hpos1, decide_eq_true_eq]
  · show (g.process_moves d1 d2).2.2 = true ↔ _
    rw [hm2, hpos2, decide_eq_true_eq]

/-! ## Claim C7 -/

theorem place_cheese_spec {b : CheeseBoard} {pos : Coordinates}
    (h : b.has_cheese pos = false) :
    b.place_cheese pos =
      (true,
        { b with
          bits := b.bits.set (pos.to_index b.width / 64)
            (b.bits.getD (pos.to_index b.width / 64) 0 |||
              1 <<< (pos.to_index b.width % 64))
          initial_cheese_count := b.initial_cheese_count + 1
          remaining_cheese_count := b.remaining_cheese_count + 1 }) := by
  unfold CheeseBoard.place_cheese
  rw [if_neg (by rw [← CheeseBoard.has_cheese]; simp [h])]

theorem place_cheese_fail {b : CheeseBoard} {pos : Coordinates}
    (h : b.has_cheese pos = true) : b.place_cheese pos = (false, b) := by
  unfold CheeseBoard.place_cheese
  rw [if_pos (by rw [← CheeseBoard.has_cheese]; exact h)]

theorem restore_cheese_fail {b : CheeseBoard} {pos : Coordinates}
    (h : b.has_cheese pos = true) : b.restore_cheese pos = (false, b) := by
  unfold CheeseBoard.restore_cheese
  rw [if_pos (by rw [← CheeseBoard.has_cheese]; exact h)]

/-- Setting a cell's bit makes `has_cheese` read true there (the cell
must be on the board: the Rust code would index out of bounds
otherwise). -/
theorem has_cheese_after_or {b : CheeseBoard} {pos : Coordinates}
    (hin : pos.to_index b.width < 64 * b.bits.length) :
    ({ b with
        bits := b.bits.set (pos.to_index b.width / 64)
          (b.bits.getD (pos.to_index b.width / 64) 0 |||
            1 <<< (pos.to_index b.width % 64)) } : CheeseBoard).has_cheese pos
      = true := by
  have hlt : pos.to_index b.width / 64 < b.bits.length := by
    rw [Nat.div_lt_iff_lt_mul (by norm_num : (0:Nat) < 64)]
    omega
  rw [has_cheese_eq_testBit]
  simp only
  rw [listSet_getD_self hlt, or_mask_testBit]
  simp

/-- C7: the cheese-board operation contract.  `place_cheese` succeeds
iff the cell was empty and then increments both counters; `take_cheese`
succeeds iff the cell held cheese and then decrements only the remaining
count; `restore_cheese` succeeds iff the cell is empty, increments only
the remaining count and never changes the initial count; any operation
returning false leaves the board (bits and both counters) unchanged.
`hwf` is the counters-match-bits invariant; `hin` says the cell is on
the board (otherwise the Rust code would panic on an out-of-range
index). -/
theorem c7_cheese_board_contract (b : CheeseBoard) (pos : Coordinates)
    (hwf : b.WF) (hin : pos.to_index b.width < 64 * b.bits.length) :
    ((b.place_cheese pos).1 = true ↔ b.has_cheese pos = false) ∧
    (b.has_cheese pos = false →
      (b.place_cheese pos).2.has_cheese pos = true ∧
      (b.place_cheese pos).2.initial_cheese_count = b.initial_cheese_count + 1 ∧
      (b.place_cheese pos).2.remaining_cheese_count = b.remaining_cheese_count + 1) ∧
    ((b.place_cheese pos).1 = false → (b.place_cheese pos).2 = b) ∧
    ((b.take_cheese pos).1 = true ↔ b.has_cheese pos = true) ∧
    (b.has_cheese pos = true →
      (b.take_cheese pos).2.has_cheese pos = false ∧
      (b.take_cheese pos).2.initial_cheese_count = b.initial_cheese_count ∧
      (b.take_cheese pos).2.remaining_cheese_count + 1 = b.remaining_cheese_count) ∧
    ((b.take_cheese pos).1 = false → (b.take_cheese pos).2 = b) ∧
    ((b.restore_cheese pos).1 = true ↔ b.has_cheese pos = false) ∧
    (b.has_cheese pos = false →
      (b.restore_cheese pos).2.has_cheese pos = true ∧
      (b.restore_cheese pos).2.initial_cheese_count = b.initial_cheese_count ∧
      (b.restore_cheese pos).2.remaining_cheese_count = b.remaining_cheese_count + 1) ∧
    ((b.restore_cheese pos).1 = false → (b.restore_cheese pos).2 = b) := by
  refine ⟨?_, ?_, ?_, ?_, ?_, ?_, ?_, ?_, ?_⟩
  · constructor
    · intro hp
      cases hh : b.has_cheese pos
      · rfl
      · rw [place_cheese_fail hh] at hp
        exact absurd hp (by simp)
    · intro hh
      rw [place_cheese_spec hh]
  · intro hh
    rw [place_cheese_spec hh]
    exact ⟨has_cheese_after_or hin, rfl, rfl⟩
  · intro hp
    cases hh : b.has_cheese pos
    · rw [place_cheese_spec hh] at hp
      exact absurd hp (by simp)
    · rw [place_cheese_fail hh]
  · rw [take_cheese_fst]
  · intro hh
    refine ⟨has_cheese_take_self hh, take_cheese_initial b pos, ?_⟩
    rw [take_cheese_board hh]
    have := remaining_pos_of_has_cheese hwf hh
    simp only
    omega
  · intro hp
    rw [take_cheese_fst] at hp
    rw [take_cheese_fail_board hp]
  · constructor
    · intro hp
      cases hh : b.has_cheese pos
      · rfl
      · rw [restore_cheese_fail hh] at hp
        exact absurd hp (by simp)
    · intro hh
      rw [restore_cheese_spec hh]
  · intro hh
    rw [restore_cheese_spec hh]
    exact ⟨has_cheese_after_or hin, rfl, rfl⟩
  · intro hp
    cases hh : b.has_cheese pos
    · rw [restore_cheese_spec hh] at hp
      exact absurd hp (by simp)
    · rw [restore_cheese_fail_board hh]

/-- Witness for C7 on a concrete 3x3 board holding one cheese. -/
theorem c7_cheese_board_contract_witness :
    exBoard.WF ∧ (⟨1, 2⟩ : Coordinates).to_index exBoard.width < 64 * exBoard.bits.length ∧
      ((exBoard.take_cheese ⟨1, 2⟩).1 = true ↔ exBoard.has_cheese ⟨1, 2⟩ = true) ∧
      (exBoard.restore_cheese ⟨1, 2⟩).1 = false :=
  ⟨by decide, by decide,
    (c7_cheese_board_contract exBoard ⟨1, 2⟩ (by decide) (by decide)).2.2.2.1,
    by decide⟩

/-! ## Claim C6 -/

/-- C6: if at the end of a turn both players have `mud_timer = 0` and
stand on the same cell holding cheese, the cheese phase removes exactly
that one cheese (its bit cleared, every other cell untouched, remaining
count down by one), adds exactly `0.5` to each player's score, and
returns exactly that cell as the collected list; and a player whose
`mud_timer` is positive at the end of the turn never collects during the
cheese phase (their score is untouched).  `g` is the state the phase
runs on, i.e. the post-movement state of the turn. -/
theorem c6_simultaneous_collection (g : GameState) (hwf : g.cheese.WF) :
    (g.player1.mud_timer = 0 → g.player2.mud_timer = 0 →
      g.player1.current_pos = g.player2.current_pos →
      g.cheese.has_cheese g.player1.current_pos = true →
      (g.process_cheese_collection).2 = [g.player1.current_pos] ∧
      (g.process_cheese_collection).1.player1.scoreQ = g.player1.scoreQ + 1 / 2 ∧
      (g.process_cheese_collection).1.player2.scoreQ = g.player2.scoreQ + 1 / 2 ∧
      (g.process_cheese_collection).1.cheese.has_cheese g.player1.current_pos
        = false ∧
      (∀ q : Coordinates,
        q.to_index g.cheese.width ≠
          (g.player1.current_pos).to_index g.cheese.width →
        (g.process_cheese_collection).1.cheese.has_cheese q
          = g.cheese.has_cheese q) ∧
      (g.process_cheese_collection).1.cheese.remaining_cheese_count + 1 =
        g.cheese.remaining_cheese_count) ∧
    (0 < g.player1.mud_timer →
      (g.process_cheese_collection).1.player1.score = g.player1.score) ∧
    (0 < g.player2.mud_timer →
      (g.process_cheese_collection).1.player2.score = g.player2.score) := by
  refine ⟨?_, ?_, ?_⟩
  · intro h1 h2 hpos hch
    have hc1 : g.player1.can_collect_cheese = true := by
      simp [PlayerState.can_collect_cheese, PlayerState.is_in_mud, h1]
    have hc2 : g.player2.can_collect_cheese = true := by
      simp [PlayerState.can_collect_cheese, PlayerState.is_in_mud, h2]
    have hbeq : (g.player1.current_pos == g.player2.current_pos) = true := by
      simp [hpos]
    have hrem := remaining_pos_of_has_cheese hwf hch
    unfold GameState.process_cheese_collection
    simp only [hc1, hc2, hbeq, Bool.and_self, Bool.true_and, if_true]
    rw [take_cheese_spec hch]
    simp only [if_true]
    refine ⟨trivial, ?_, ?_, ?_, ?_, ?_⟩
    · unfold PlayerState.scoreQ
      push_cast
      ring
    · unfold PlayerState.scoreQ
      push_cast
      ring
    · have := has_cheese_take_self hch
      rw [take_cheese_spec hch] at this
      exact this
    · intro q hq
      have := has_cheese_take_other (b := g.cheese)
        (p := q) (q := g.player1.current_pos) hq
      rw [take_cheese_spec hch] at this
      exact this
    · dsimp only
      omega
  · intro h1
    have hc1 : g.player1.can_collect_cheese = false := by
      simp [PlayerState.can_collect_cheese, PlayerState.is_in_mud]
      omega
    unfold GameState.process_cheese_collection
    simp only [hc1, Bool.false_and, Bool.false_eq_true, if_false]
    cases hc2 : g.player2.can_collect_cheese with
    | false => simp only [hc1, hc2, Bool.false_eq_true, if_false]
    | true =>
      simp only [hc1, hc2, Bool.false_eq_true, if_false, if_true]
      cases hr : (g.cheese.take_cheese g.player2.current_pos).1 with
      | false => simp only [hr, Bool.false_eq_true, if_false]
      | true => simp only [hr, if_true]
  · intro h2
    have hc2 : g.player2.can_collect_cheese = false := by
      simp [PlayerState.can_collect_cheese, PlayerState.is_in_mud]
      omega
    unfold GameState.process_cheese_collection
    simp only [hc2, Bool.and_false, Bool.false_and, Bool.false_eq_true, if_false]
    cases hc1 : g.player1.can_collect_cheese with
    | false => simp only [hc1, hc2, Bool.false_eq_true, if_false]
    | true =>
      simp only [hc1, hc2, Bool.false_eq_true, if_false, if_true]
      cases hr : (g.cheese.take_cheese g.player1.current_pos).1 with
      | false => simp only [hr, hc2, Bool.false_eq_true, if_false]
      | true => simp only [hr, hc2, Bool.false_eq_true, if_false, if_true]

/-- Witness for C6: the S4 board (both players step onto the single
cheese at `(1,1)`), checked after the movement phase. -/
theorem c6_simultaneous_collection_witness :
    (let s4 : GameState :=
      { width := 3, height := 3
        move_table := MoveTable.new 3 3 noWalls
        player1 := ⟨⟨1, 1⟩, ⟨1, 1⟩, 0, 0, 0⟩
        player2 := ⟨⟨1, 1⟩, ⟨1, 1⟩, 0, 0, 0⟩
        mud := noMud
        cheese := ((CheeseBoard.new 3 3).place_cheese ⟨1, 1⟩).2
        turn := 0
        max_turns := 300 }
     (s4.process_cheese_collection).2 = [⟨1, 1⟩] ∧
       (s4.process_cheese_collection).1.player1.scoreQ = 0 + 1 / 2) := by
  intro s4
  have h := c6_simultaneous_collection s4 (by decide)
  obtain ⟨hC, hs1, _, _, _, _⟩ := h.1 rfl rfl rfl (by decide)
  refine ⟨hC, ?_⟩
  rw [hs1]
  norm_num [PlayerState.scoreQ]

/-! ## Claim C5 -/

theorem missPlayer_fields (p : PlayerState) (s : Coordinates) :
    (missPlayer p s).current_pos = p.current_pos ∧
    (missPlayer p s).target_pos = p.target_pos ∧
    (missPlayer p s).mud_timer = p.mud_timer := by
  unfold missPlayer
  split <;> exact ⟨rfl, rfl, rfl⟩

theorem settle_fields (p : PlayerState) :
    (settlePlayer p).target_pos = p.target_pos ∧
    (settlePlayer p).mud_timer = p.mud_timer := by
  unfold settlePlayer
  split <;> exact ⟨rfl, rfl⟩

theorem settle_current (p : PlayerState) :
    (settlePlayer p).current_pos =
      if p.mud_timer = 0 ∧ p.current_pos ≠ p.target_pos then p.target_pos
      else p.current_pos := by
  unfold settlePlayer
  split <;> simp_all

theorem settle_id_of_timer_ne (p : PlayerState) (h : p.mud_timer ≠ 0) :
    settlePlayer p = p := by
  unfold settlePlayer
  rw [if_neg]
  rintro ⟨hz, _⟩
  exact h hz

theorem settle_id_of_eq (p : PlayerState) (h : p.current_pos = p.target_pos) :
    settlePlayer p = p := by
  unfold settlePlayer
  rw [if_neg]
  rintro ⟨_, hne⟩
  exact hne h

theorem compute_in_mud (g : GameState) (p : PlayerState) (d : Direction)
    (h : 0 < p.mud_timer) : g.compute_player_move p d = (false, p.current_pos) := by
  unfold GameState.compute_player_move
  rw [if_pos (by simp [PlayerState.is_in_mud]; omega)]

theorem compute_moved (g : GameState) (p : PlayerState) (d : Direction)
    (h : p.mud_timer = 0) (hd : d ≠ .Stay)
    (hv : g.move_table.is_move_valid p.current_pos d = true) :
    g.compute_player_move p d = (true, d.apply_to p.current_pos) := by
  unfold GameState.compute_player_move
  rw [if_neg (by simp [PlayerState.is_in_mud, h]), if_neg hd, if_neg (by simp [hv])]

theorem movePhase_in_mud (mud : MudMap) (p : PlayerState) (moved : Bool)
    (new_pos : Coordinates) (h : 0 < p.mud_timer) :
    movePhasePlayer mud p moved new_pos =
      if p.mud_timer - 1 = 0 then
        { p with mud_timer := p.mud_timer - 1, current_pos := p.target_pos }
      else { p with mud_timer := p.mud_timer - 1 } := by
  unfold movePhasePlayer
  rw [if_pos h]

theorem movePhase_enter (mud : MudMap) (p : PlayerState) (new_pos : Coordinates)
    (h : p.mud_timer = 0) (k : Nat) (hk : 1 < k)
    (hm : mud p.current_pos new_pos = some k) :
    movePhasePlayer mud p true new_pos =
      { p with mud_timer := k, target_pos := new_pos } := by
  unfold movePhasePlayer
  rw [if_neg (by omega), if_pos rfl, hm]
  simp only [Option.getD_some, if_pos hk]

theorem movePhase_commit (mud : MudMap) (p : PlayerState) (new_pos : Coordinates)
    (h : p.mud_timer = 0) (hm : (mud p.current_pos new_pos).getD 0 ≤ 1) :
    movePhasePlayer mud p true new_pos =
      { p with mud_timer := (mud p.current_pos new_pos).getD 0,
               current_pos := new_pos, target_pos := new_pos } := by
  unfold movePhasePlayer
  rw [if_neg (by omega), if_pos rfl, if_neg (by omega)]

/-- The player-1 fields of a turn are those of the movement phase (the
cheese phase only touches scores). -/
theorem process_turn_player1_fields (g : GameState) (d1 d2 : Direction) :
    (g.process_turn d1 d2).1.player1.current_pos =
      (g.process_moves d1 d2).1.player1.current_pos ∧
    (g.process_turn d1 d2).1.player1.target_pos =
      (g.process_moves d1 d2).1.player1.target_pos ∧
    (g.process_turn d1 d2).1.player1.mud_timer =
      (g.process_moves d1 d2).1.player1.mud_timer ∧
    (g.process_turn d1 d2).1.player1.misses =
      (g.process_moves d1 d2).1.player1.misses := by
  obtain ⟨b, s1, s2, hshape⟩ := collection_shape (g.process_moves d1 d2).1
  rw [process_turn_fst, hshape]
  exact ⟨rfl, rfl, rfl, rfl⟩

theorem process_turn_player2_fields (g : GameState) (d1 d2 : Direction) :
    (g.process_turn d1 d2).1.player2.current_pos =
      (g.process_moves d1 d2).1.player2.current_pos ∧
    (g.process_turn d1 d2).1.player2.target_pos =
      (g.process_moves d1 d2).1.player2.target_pos ∧
    (g.process_turn d1 d2).1.player2.mud_timer =
      (g.process_moves d1 d2).1.player2.mud_timer ∧
    (g.process_turn d1 d2).1.player2.misses =
      (g.process_moves d1 d2).1.player2.misses := by
  obtain ⟨b, s1, s2, hshape⟩ := collection_shape (g.process_moves d1 d2).1
  rw [process_turn_fst, hshape]
  exact ⟨rfl, rfl, rfl, rfl⟩

/-- The mud-tick behaviour of the per-player movement pipeline. -/
theorem tick_pipeline (mud : MudMap) (p : PlayerState) (moved : Bool)
    (new_pos start : Coordinates) (h : 0 < p.mud_timer) :
    (missPlayer (settlePlayer (movePhasePlayer mud p moved new_pos)) start).mud_timer
        = p.mud_timer - 1 ∧
    (missPlayer (settlePlayer (movePhasePlayer mud p moved new_pos)) start).target_pos
        = p.target_pos ∧
    (missPlayer (settlePlayer (movePhasePlayer mud p moved new_pos)) start).current_pos
        = (if p.mud_timer = 1 then p.target_pos else p.current_pos) := by
  rw [movePhase_in_mud mud p moved new_pos h]
  by_cases h1 : p.mud_timer = 1
  · rw [if_pos (by omega), if_pos h1]
    have hset : settlePlayer
        { p with mud_timer := p.mud_timer - 1, current_pos := p.target_pos } =
        { p with mud_timer := p.mud_timer - 1, current_pos := p.target_pos } := by
      unfold settlePlayer
      rw [if_neg]
      rintro ⟨_, hne⟩
      exact hne rfl
    rw [hset]
    unfold missPlayer
    split <;> exact ⟨rfl, rfl, rfl⟩
  · rw [if_neg (by omega), if_neg h1]
    have hset : settlePlayer { p with mud_timer := p.mud_timer - 1 } =
        { p with mud_timer := p.mud_timer - 1 } := by
      unfold settlePlayer
      rw [if_neg]
      rintro ⟨h0, _⟩
      simp only at h0
      omega
    rw [hset]
    unfold missPlayer
    split <;> exact ⟨rfl, rfl, rfl⟩

/-- One turn taken while player 1 is in mud: the chosen direction is
discarded, the timer decrements, and the position commits to the target
exactly when the timer reaches zero. -/
theorem mud_tick_p1 (s : GameState) (d1 d2 : Direction)
    (h : 0 < s.player1.mud_timer) :
    (s.process_turn d1 d2).1.player1.mud_timer = s.player1.mud_timer - 1 ∧
    (s.process_turn d1 d2).1.player1.target_pos = s.player1.target_pos ∧
    (s.process_turn d1 d2).1.player1.current_pos =
      (if s.player1.mud_timer = 1 then s.player1.target_pos
       else s.player1.current_pos) := by
  obtain ⟨hc, ht, hm, _⟩ := process_turn_player1_fields s d1 d2
  rw [hc, ht, hm, process_moves_player1, compute_in_mud s s.player1 d1 h]
  exact tick_pipeline s.mud s.player1 false s.player1.current_pos
    s.player1.current_pos h

theorem mud_tick_p2 (s : GameState) (d1 d2 : Direction)
    (h : 0 < s.player2.mud_timer) :
    (s.process_turn d1 d2).1.player2.mud_timer = s.player2.mud_timer - 1 ∧
    (s.process_turn d1 d2).1.player2.target_pos = s.player2.target_pos ∧
    (s.process_turn d1 d2).1.player2.current_pos =
      (if s.player2.mud_timer = 1 then s.player2.target_pos
       else s.player2.current_pos) := by
  obtain ⟨hc, ht, hm, _⟩ := process_turn_player2_fields s d1 d2
  rw [hc, ht, hm, process_moves_player2, compute_in_mud s s.player2 d2 h]
  exact tick_pipeline s.mud s.player2 false s.player2.current_pos
    s.player2.current_pos h

/-- Fold `process_turn` over a list of direction pairs. -/
def playTurns (g : GameState) (ds : List (Direction × Direction)) : GameState :=
  ds.foldl (fun s m => (s.process_turn m.1 m.2).1) g

theorem mud_ride_p1 (dest : Coordinates) :
    ∀ (ds : List (Direction × Direction)) (s : GameState),
      0 < s.player1.mud_timer → s.player1.target_pos = dest →
      ds.length ≤ s.player1.mud_timer →
      (playTurns s ds).player1.mud_timer = s.player1.mud_timer - ds.length ∧
      (playTurns s ds).player1.target_pos = dest ∧
      (playTurns s ds).player1.current_pos =
        (if ds.length < s.player1.mud_timer then s.player1.current_pos else dest)
  | [], s, hpos, htgt, _ => by
    refine ⟨by simp [playTurns], htgt, ?_⟩
    show s.player1.current_pos = _
    rw [if_pos (by simp only [List.length_nil]; omega)]
  | m :: ds, s, hpos, htgt, hlen => by
    obtain ⟨hm, ht, hc⟩ := mud_tick_p1 s m.1 m.2 hpos
    have hstep : playTurns s (m :: ds) = playTurns (s.process_turn m.1 m.2).1 ds := rfl
    rw [hstep]
    simp only [List.length_cons] at hlen ⊢
    by_cases h1 : s.player1.mud_timer = 1
    · have hds : ds = [] := by
        cases ds with
        | nil => rfl
        | cons x xs =>
          exfalso
          simp only [List.length_cons] at hlen
          omega
      subst hds
      have hplay : playTurns (s.process_turn m.1 m.2).1 [] =
          (s.process_turn m.1 m.2).1 := rfl
      rw [hplay]
      refine ⟨by rw [hm]; simp, by rw [ht, htgt], ?_⟩
      rw [hc, if_pos h1, htgt,
        if_neg (by simp only [List.length_nil]; omega)]
    · have hpos' : 0 < (s.process_turn m.1 m.2).1.player1.mud_timer := by
        rw [hm]; omega
      have htgt' : (s.process_turn m.1 m.2).1.player1.target_pos = dest := by
        rw [ht, htgt]
      have hlen' : ds.length ≤ (s.process_turn m.1 m.2).1.player1.mud_timer := by
        rw [hm]
        omega
      obtain ⟨ihm, iht, ihc⟩ := mud_ride_p1 dest ds (s.process_turn m.1 m.2).1
        hpos' htgt' hlen'
      refine ⟨by rw [ihm, hm]; omega, iht, ?_⟩
      rw [ihc, hm, hc, if_neg h1]
      by_cases h2 : ds.length < s.player1.mud_timer - 1
      · rw [if_pos h2, if_pos (by omega)]
      · rw [if_neg h2, if_neg (by omega)]

theorem mud_ride_p2 (dest : Coordinates) :
    ∀ (ds : List (Direction × Direction)) (s : GameState),
      0 < s.player2.mud_timer → s.player2.target_pos = dest →
      ds.length ≤ s.player2.mud_timer →
      (playTurns s ds).player2.mud_timer = s.player2.mud_timer - ds.length ∧
      (playTurns s ds).player2.target_pos = dest ∧
      (playTurns s ds).player2.current_pos =
        (if ds.length < s.player2.mud_timer then s.player2.current_pos else dest)
  | [], s, hpos, htgt, _ => by
    refine ⟨by simp [playTurns], htgt, ?_⟩
    show s.player2.current_pos = _
    rw [if_pos (by simp only [List.length_nil]; omega)]
  | m :: ds, s, hpos, htgt, hlen => by
    obtain ⟨hm, ht, hc⟩ := mud_tick_p2 s m.1 m.2 hpos
    have hstep : playTurns s (m :: ds) = playTurns (s.process_turn m.1 m.2).1 ds := rfl
    rw [hstep]
    simp only [List.length_cons] at hlen ⊢
    by_cases h1 : s.player2.mud_timer = 1
    · have hds : ds = [] := by
        cases ds with
        | nil => rfl
        | cons x xs =>
          exfalso
          simp only [List.length_cons] at hlen
          omega
      subst hds
      have hplay : playTurns (s.process_turn m.1 m.2).1 [] =
          (s.process_turn m.1 m.2).1 := rfl
      rw [hplay]
      refine ⟨by rw [hm]; simp, by rw [ht, htgt], ?_⟩
      rw [hc, if_pos h1, htgt,
        if_neg (by simp only [List.length_nil]; omega)]
    · have hpos' : 0 < (s.process_turn m.1 m.2).1.player2.mud_timer := by
        rw [hm]; omega
      have htgt' : (s.process_turn m.1 m.2).1.player2.target_pos = dest := by
        rw [ht, htgt]
      have hlen' : ds.length ≤ (s.process_turn m.1 m.2).1.player2.mud_timer := by
        rw [hm]
        omega
      obtain ⟨ihm, iht, ihc⟩ := mud_ride_p2 dest ds (s.process_turn m.1 m.2).1
        hpos' htgt' hlen'
      refine ⟨by rw [ihm, hm]; omega, iht, ?_⟩
      rw [ihc, hm, hc, if_neg h1]
      by_cases h2 : ds.length < s.player2.mud_timer - 1
      · rw [if_pos h2, if_pos (by omega)]
      · rw [if_neg h2, if_neg (by omega)]

/-- The enter-mud behaviour of the per-player movement pipeline. -/
theorem enter_pipeline (mud : MudMap) (p : PlayerState) (new_pos start : Coordinates)
    (h0 : p.mud_timer = 0) (k : Nat) (hk : 1 < k)
    (hm : mud p.current_pos new_pos = some k) :
    (missPlayer (settlePlayer (movePhasePlayer mud p true new_pos)) start).current_pos
        = p.current_pos ∧
    (missPlayer (settlePlayer (movePhasePlayer mud p true new_pos)) start).target_pos
        = new_pos ∧
    (missPlayer (settlePlayer (movePhasePlayer mud p true new_pos)) start).mud_timer
        = k := by
  rw [movePhase_enter mud p new_pos h0 k hk hm]
  have hset : settlePlayer { p with mud_timer := k, target_pos := new_pos } =
      { p with mud_timer := k, target_pos := new_pos } := by
    unfold settlePlayer
    rw [if_neg]
    rintro ⟨hz, _⟩
    simp only at hz
    omega
  rw [hset]
  unfold missPlayer
  split <;> exact ⟨rfl, rfl, rfl⟩

theorem mud_enter_p1 (g : GameState) (d1 d2 : Direction) (k : Nat)
    (h0 : g.player1.mud_timer = 0) (hd : d1 ≠ .Stay)
    (hv : g.move_table.is_move_valid g.player1.current_pos d1 = true)
    (hm : g.mud g.player1.current_pos (d1.apply_to g.player1.current_pos) = some k)
    (hk : 2 ≤ k) :
    (g.process_turn d1 d2).1.player1.current_pos = g.player1.current_pos ∧
    (g.process_turn d1 d2).1.player1.target_pos =
      d1.apply_to g.player1.current_pos ∧
    (g.process_turn d1 d2).1.player1.mud_timer = k := by
  obtain ⟨hc, ht, hmm, _⟩ := process_turn_player1_fields g d1 d2
  rw [hc, ht, hmm, process_moves_player1, compute_moved g g.player1 d1 h0 hd hv]
  exact enter_pipeline g.mud g.player1 (d1.apply_to g.player1.current_pos)
    g.player1.current_pos h0 k (by omega) hm

theorem mud_enter_p2 (g : GameState) (d1 d2 : Direction) (k : Nat)
    (h0 : g.player2.mud_timer = 0) (hd : d2 ≠ .Stay)
    (hv : g.move_table.is_move_valid g.player2.current_pos d2 = true)
    (hm : g.mud g.player2.current_pos (d2.apply_to g.player2.current_pos) = some k)
    (hk : 2 ≤ k) :
    (g.process_turn d1 d2).1.player2.current_pos = g.player2.current_pos ∧
    (g.process_turn d1 d2).1.player2.target_pos =
      d2.apply_to g.player2.current_pos ∧
    (g.process_turn d1 d2).1.player2.mud_timer = k := by
  obtain ⟨hc, ht, hmm, _⟩ := process_turn_player2_fields g d1 d2
  rw [hc, ht, hmm, process_moves_player2, compute_moved g g.player2 d2 h0 hd hv]
  exact enter_pipeline g.mud g.player2 (d2.apply_to g.player2.current_pos)
    g.player2.current_pos h0 k (by omega) hm

/-- C5 (amended): when a player not in mud makes a legal move onto an
edge with mud cost `k ≥ 2`, that turn sets `target_pos` to the
destination and `mud_timer` to `k` while `current_pos` stays unchanged;
on each subsequent turn the chosen directions are discarded, the timer
decrements, and `current_pos` commits to `target_pos` exactly when the
timer reaches 0 — after `k` (not `k − 1`) subsequent turns.  Stated for
either player (the source duplicates the same block for both). -/
theorem c5_mud_traversal (g : GameState) (d1 d2 : Direction) (k : Nat) :
    ((g.player1.mud_timer = 0 → d1 ≠ .Stay →
      g.move_table.is_move_valid g.player1.current_pos d1 = true →
      g.mud g.player1.current_pos (d1.apply_to g.player1.current_pos) = some k →
      2 ≤ k →
      ((g.process_turn d1 d2).1.player1.current_pos = g.player1.current_pos ∧
       (g.process_turn d1 d2).1.player1.target_pos =
         d1.apply_to g.player1.current_pos ∧
       (g.process_turn d1 d2).1.player1.mud_timer = k) ∧
      (∀ ds : List (Direction × Direction), ds.length ≤ k →
        (playTurns (g.process_turn d1 d2).1 ds).player1.mud_timer = k - ds.length ∧
        (playTurns (g.process_turn d1 d2).1 ds).player1.target_pos =
          d1.apply_to g.player1.current_pos ∧
        (playTurns (g.process_turn d1 d2).1 ds).player1.current_pos =
          (if ds.length < k then g.player1.current_pos
           else d1.apply_to g.player1.current_pos))) ∧
     (g.player2.mud_timer = 0 → d2 ≠ .Stay →
      g.move_table.is_move_valid g.player2.current_pos d2 = true →
      g.mud g.player2.current_pos (d2.apply_to g.player2.current_pos) = some k →
      2 ≤ k →
      ((g.process_turn d1 d2).1.player2.current_pos = g.player2.current_pos ∧
       (g.process_turn d1 d2).1.player2.target_pos =
         d2.apply_to g.player2.current_pos ∧
       (g.process_turn d1 d2).1.player2.mud_timer = k) ∧
      (∀ ds : List (Direction × Direction), ds.length ≤ k →
        (playTurns (g.process_turn d1 d2).1 ds).player2.mud_timer = k - ds.length ∧
        (playTurns (g.process_turn d1 d2).1 ds).player2.target_pos =
          d2.apply_to g.player2.current_pos ∧
        (playTurns (g.process_turn d1 d2).1 ds).player2.current_pos =
          (if ds.length < k then g.player2.current_pos
           else d2.apply_to g.player2.current_pos)))) := by
  constructor
  · intro h0 hd hv hm hk
    obtain ⟨e1, e2, e3⟩ := mud_enter_p1 g d1 d2 k h0 hd hv hm hk
    refine ⟨⟨e1, e2, e3⟩, ?_⟩
    intro ds hlen
    obtain ⟨r1, r2, r3⟩ := mud_ride_p1 (d1.apply_to g.player1.current_pos) ds
      (g.process_turn d1 d2).1 (by rw [e3]; omega) e2 (by rw [e3]; exact hlen)
    refine ⟨by rw [r1, e3], r2, ?_⟩
    rw [r3, e3, e1]
  · intro h0 hd hv hm hk
    obtain ⟨e1, e2, e3⟩ := mud_enter_p2 g d1 d2 k h0 hd hv hm hk
    refine ⟨⟨e1, e2, e3⟩, ?_⟩
    intro ds hlen
    obtain ⟨r1, r2, r3⟩ := mud_ride_p2 (d2.apply_to g.player2.current_pos) ds
      (g.process_turn d1 d2).1 (by rw [e3]; omega) e2 (by rw [e3]; exact hlen)
    refine ⟨by rw [r1, e3], r2, ?_⟩
    rw [r3, e3, e1]

/-- Counterexample to C5 as stated: with cost `k = 2` mud (the S3
setup), after `k − 1 = 1` subsequent turn the player is still at the
start cell with `mud_timer = 1` — the mud instance has not expired after
`k − 1` subsequent turns; it takes `k`. -/
theorem c5_mud_traversal_counterexample :
    ((exGame.process_turn .Up .Stay).1.player1.mud_timer = 2 ∧
     (exGame.process_turn .Up .Stay).1.player1.target_pos = ⟨1, 2⟩ ∧
     ((exGame.process_turn .Up .Stay).1.process_turn .Right .Stay).1.player1.mud_timer
       = 1 ∧
     ((exGame.process_turn .Up .Stay).1.process_turn .Right .Stay).1.player1.current_pos
       = ⟨1, 1⟩ ∧
     (⟨1, 1⟩ : Coordinates) ≠ (⟨1, 2⟩ : Coordinates)) := by
  decide

/-- Witness for C5: riding the cost-2 mud for 2 subsequent turns lands
player 1 on the destination with the timer at 0. -/
theorem c5_mud_traversal_witness :
    (playTurns (exGame.process_turn .Up .Stay).1
        [(.Right, .Stay), (.Left, .Stay)]).player1.current_pos = ⟨1, 2⟩ ∧
    (playTurns (exGame.process_turn .Up .Stay).1
        [(.Right, .Stay), (.Left, .Stay)]).player1.mud_timer = 0 := by
  have h := (c5_mud_traversal exGame .Up .Stay 2).1 rfl (by decide) (by decide)
    (by decide) (by decide)
  obtain ⟨_, hride⟩ := h
  obtain ⟨hm, _, hc⟩ := hride [(.Right, .Stay), (.Left, .Stay)] (by decide)
  rw [if_neg (by decide)] at hc
  refine ⟨?_, ?_⟩
  · rw [hc]
    decide
  · rw [hm]
    decide

/-! ## Claim C8 -/

/-- A mud tick that leaves the timer positive keeps the position and
increments `misses`. -/
theorem tick_miss_pipeline (mud : MudMap) (p : PlayerState) (moved : Bool)
    (new_pos : Coordinates) (h : 2 ≤ p.mud_timer) :
    (missPlayer (settlePlayer (movePhasePlayer mud p moved new_pos))
        p.current_pos).misses = p.misses + 1 ∧
    (missPlayer (settlePlayer (movePhasePlayer mud p moved new_pos))
        p.current_pos).current_pos = p.current_pos ∧
    (missPlayer (settlePlayer (movePhasePlayer mud p moved new_pos))
        p.current_pos).mud_timer = p.mud_timer - 1 := by
  rw [movePhase_in_mud mud p moved new_pos (by omega), if_neg (by omega)]
  have hset : settlePlayer { p with mud_timer := p.mud_timer - 1 } =
      { p with mud_timer := p.mud_timer - 1 } := by
    unfold settlePlayer
    rw [if_neg]
    rintro ⟨hz, _⟩
    simp only at hz
    omega
  rw [hset]
  unfold missPlayer
  rw [if_neg (by simp)]
  exact ⟨rfl, rfl, rfl⟩

/-- C8 (amended): on a turn where a player starts with `mud_timer ≥ 2`
(so the decrement does not reach 0 and the visible position cannot
change), the engine counts the turn as a miss: the player's `misses`
counter IS incremented.  The miss accounting is purely
"position did not change", with no exemption for the mud-tick path. -/
theorem c8_mud_miss (g : GameState) (d1 d2 : Direction) :
    (2 ≤ g.player1.mud_timer →
      (g.process_turn d1 d2).1.player1.misses = g.player1.misses + 1 ∧
      (g.process_turn d1 d2).1.player1.current_pos = g.player1.current_pos ∧
      (g.process_turn d1 d2).1.player1.mud_timer = g.player1.mud_timer - 1) ∧
    (2 ≤ g.player2.mud_timer →
      (g.process_turn d1 d2).1.player2.misses = g.player2.misses + 1 ∧
      (g.process_turn d1 d2).1.player2.current_pos = g.player2.current_pos ∧
      (g.process_turn d1 d2).1.player2.mud_timer = g.player2.mud_timer - 1) := by
  constructor
  · intro h
    obtain ⟨hc, _, hm, hms⟩ := process_turn_player1_fields g d1 d2
    rw [hc, hm, hms, process_moves_player1,
      compute_in_mud g g.player1 d1 (by omega)]
    obtain ⟨a, b, c⟩ := tick_miss_pipeline g.mud g.player1 false
      g.player1.current_pos h
    exact ⟨a, b, c⟩
  · intro h
    obtain ⟨hc, _, hm, hms⟩ := process_turn_player2_fields g d1 d2
    rw [hc, hm, hms, process_moves_player2,
      compute_in_mud g g.player2 d2 (by omega)]
    obtain ⟨a, b, c⟩ := tick_miss_pipeline g.mud g.player2 false
      g.player2.current_pos h
    exact ⟨a, b, c⟩

/-- Counterexample to C8 as stated: S3 setup, mud cost 2.  The entry
turn leaves `misses = 1`; the mud-tick turn (timer 2 → 1, position
unchanged) increments `misses` to 2, contradicting "the mud-tick path is
treated as a non-miss". -/
theorem c8_mud_miss_counterexample :
    ((exGame.process_turn .Up .Stay).1.player1.misses = 1 ∧
     ((exGame.process_turn .Up .Stay).1.process_turn .Right .Stay).1.player1.mud_timer
       = 1 ∧
     ((exGame.process_turn .Up .Stay).1.process_turn .Right .Stay).1.player1.current_pos
       = (exGame.process_turn .Up .Stay).1.player1.current_pos ∧
     ((exGame.process_turn .Up .Stay).1.process_turn .Right .Stay).1.player1.misses
       = 2) := by
  decide

/-- Witness for C8 (amended): the same mud tick, via the theorem. -/
theorem c8_mud_miss_witness :
    2 ≤ (exGame.process_turn .Up .Stay).1.player1.mud_timer ∧
    ((exGame.process_turn .Up .Stay).1.process_turn .Right .Stay).1.player1.misses =
      (exGame.process_turn .Up .Stay).1.player1.misses + 1 :=
  ⟨by decide,
    ((c8_mud_miss (exGame.process_turn .Up .Stay).1 .Right .Stay).1 (by decide)).1⟩

/-! ## Claim C3 -/

/-- C3 (failing input for the symmetry requirement): on a 2x2 board
whose wall map lists the block only under `(1,0)` (an asymmetrically
populated map), the built table allows `(0,0) → Right` but denies
`(1,0) → Left`: `has_wall` performs its reverse-direction lookup only
when the source cell has an entry of its own, so a wall recorded from a
single side blocks only that side, contradicting both the specification
and the code's own "also check from the other direction" intent. -/
theorem c3_wall_asymmetry_failing_input :
    (let walls : WallMap := fun c => if c = ⟨1, 0⟩ then some [⟨0, 0⟩] else none
     (MoveTable.new 2 2 walls).is_move_valid ⟨0, 0⟩ .Right = true ∧
       (MoveTable.new 2 2 walls).is_move_valid ⟨1, 0⟩ .Left = false) := by
  decide

/-! ## Claim C9 -/

/-- `CheeseGenerator::get_symmetric`. -/
def getSymmetric (width height : Nat) (pos : Coordinates) : Coordinates :=
  ⟨width - 1 - pos.x, height - 1 - pos.y⟩

/-- The candidate enumeration of `CheeseGenerator::generate` with
`symmetry = false`: the conjunct `!symmetry || !considered.contains`
is identically true (and `considered` is never populated), leaving the
filter `pos != p1 && pos != p2 && pos != get_symmetric(pos)` over the
`x`-outer `y`-inner loop. -/
def cheeseCandidatesAsym (width height : Nat) (p1 p2 : Coordinates) :
    List Coordinates :=
  (List.range width).flatMap fun x =>
    (List.range height).filterMap fun y =>
      let pos : Coordinates := ⟨x, y⟩
      if pos ≠ p1 ∧ pos ≠ p2 ∧ pos ≠ getSymmetric width height pos then some pos
      else none

/-- `Vec::swap_remove`: overwrite index `i` with the last element and
pop the last element. -/
def swapRemove (l : List Coordinates) (i : Nat) : List Coordinates :=
  (l.set i (l.getD (l.length - 1) ⟨0, 0⟩)).dropLast

/-- The asymmetric placement loop of `CheeseGenerator::generate`
(`while remaining > 0 && !candidates.is_empty()`), with the
`rng.gen_range(0..len)` draw abstracted as an oracle reduced into
range. Each iteration emits one cell and `swap_remove`s it. -/
def sampleAsym : Nat → List Coordinates → (Nat → Nat) → List Coordinates
  | 0, _, _ => []
  | r + 1, cands, rng =>
    if cands.isEmpty then []
    else
      let i := rng (r + 1) % cands.length
      cands.getD i ⟨0, 0⟩ :: sampleAsym r (swapRemove cands i) rng

theorem swapRemove_length (l : List Coordinates) (i : Nat) :
    (swapRemove l i).length = l.length - 1 := by
  unfold swapRemove
  rw [List.length_dropLast, List.length_set]

/-- C9 (amended): in asymmetric mode the candidate set is exactly the
board cells minus the two player positions **and minus any cell equal to
its own 180-degree image** (on an odd-by-odd board the exact center cell
is excluded even with symmetry disabled, because the code applies the
`pos != get_symmetric(pos)` filter unconditionally); and the placement
loop draws one cell per iteration until the requested count is met
(whenever enough candidates exist, exactly `count` cells are emitted). -/
theorem c9_cheese_candidates (width height : Nat) (p1 p2 pos : Coordinates) :
    (pos ∈ cheeseCandidatesAsym width height p1 p2 ↔
      (pos.x < width ∧ pos.y < height ∧ pos ≠ p1 ∧ pos ≠ p2 ∧
        pos ≠ getSymmetric width height pos)) ∧
    (∀ (r : Nat) (cands : List Coordinates) (rng : Nat → Nat),
      r ≤ cands.length → (sampleAsym r cands rng).length = r) := by
  constructor
  · unfold cheeseCandidatesAsym
    rw [List.mem_flatMap]
    constructor
    · rintro ⟨x, hx, hmem⟩
      rw [List.mem_filterMap] at hmem
      obtain ⟨y, hy, hf⟩ := hmem
      rw [List.mem_range] at hx hy
      by_cases hcond : (⟨x, y⟩ : Coordinates) ≠ p1 ∧ (⟨x, y⟩ : Coordinates) ≠ p2 ∧
          (⟨x, y⟩ : Coordinates) ≠ getSymmetric width height ⟨x, y⟩
      · rw [if_pos hcond, Option.some_inj] at hf
        subst hf
        exact ⟨hx, hy, hcond.1, hcond.2.1, hcond.2.2⟩
      · rw [if_neg hcond] at hf
        exact absurd hf (by simp)
    · rintro ⟨hx, hy, h1, h2, hs⟩
      refine ⟨pos.x, by rw [List.mem_range]; exact hx, ?_⟩
      rw [List.mem_filterMap]
      refine ⟨pos.y, by rw [List.mem_range]; exact hy, ?_⟩
      have hpos : (⟨pos.x, pos.y⟩ : Coordinates) = pos := rfl
      rw [hpos, if_pos ⟨h1, h2, hs⟩]
  · intro r
    induction r with
    | zero => intro cands rng _; rfl
    | succ n ih =>
      intro cands rng hlen
      have hne : cands.isEmpty = false := by
        cases cands with
        | nil => simp at hlen
        | cons a l => rfl
      show (if cands.isEmpty then [] else _).length = n + 1
      rw [hne]
      simp only [Bool.false_eq_true, if_false, List.length_cons]
      rw [ih (swapRemove cands (rng (n + 1) % cands.length)) rng]
      rw [swapRemove_length]
      omega

/-- Counterexample to C9 as stated: on the 3x3 board with players at the
corners, the center `(1,1)` is neither player position yet is **not** a
candidate in asymmetric mode. -/
theorem c9_cheese_candidates_counterexample :
    ((⟨1, 1⟩ : Coordinates) ≠ ⟨0, 0⟩ ∧ (⟨1, 1⟩ : Coordinates) ≠ ⟨2, 2⟩ ∧
     (⟨1, 1⟩ : Coordinates).x < 3 ∧ (⟨1, 1⟩ : Coordinates).y < 3 ∧
     (⟨1, 1⟩ : Coordinates) ∉ cheeseCandidatesAsym 3 3 ⟨0, 0⟩ ⟨2, 2⟩) := by
  decide

/-- Witness for C9: the membership characterization at a concrete cell,
and a concrete three-draw run emitting three cells. -/
theorem c9_cheese_candidates_witness :
    (⟨1, 0⟩ : Coordinates) ∈ cheeseCandidatesAsym 3 3 ⟨0, 0⟩ ⟨2, 2⟩ ∧
    (sampleAsym 3 (cheeseCandidatesAsym 3 3 ⟨0, 0⟩ ⟨2, 2⟩) (fun _ => 0)).length = 3 :=
  ⟨(c9_cheese_candidates 3 3 ⟨0, 0⟩ ⟨2, 2⟩ ⟨1, 0⟩).1.mpr (by decide),
    (c9_cheese_candidates 3 3 ⟨0, 0⟩ ⟨2, 2⟩ ⟨1, 0⟩).2 3 _ _ (by decide)⟩

/-! ## Claim C2 -/

/-- The per-player state invariant relative to board dimensions. -/
def PlayerInv (width height : Nat) (p : PlayerState) : Prop :=
  p.current_pos.x < width ∧ p.current_pos.y < height ∧
  p.target_pos.x < width ∧ p.target_pos.y < height ∧
  (p.mud_timer = 0 ↔ p.current_pos = p.target_pos)

instance (width height : Nat) (p : PlayerState) : Decidable (PlayerInv width height p) :=
  inferInstanceAs (Decidable
    (p.current_pos.x < width ∧ p.current_pos.y < height ∧
      p.target_pos.x < width ∧ p.target_pos.y < height ∧
      (p.mud_timer = 0 ↔ p.current_pos = p.target_pos)))

/-- A valid playing state: `u8` dimensions, a move table built by
`MoveTable::new` from some wall map, mud costs at least 2 (the data
model stores no cost below 2), and both players satisfying the player
invariant. -/
def GameState.Playable (g : GameState) : Prop :=
  g.width ≤ 255 ∧ g.height ≤ 255 ∧
  (∃ walls, g.move_table = MoveTable.new g.width g.height walls) ∧
  (∀ a b v, g.mud a b = some v → 2 ≤ v) ∧
  PlayerInv g.width g.height g.player1 ∧ PlayerInv g.width g.height g.player2

/-- The per-player movement pipeline preserves the player invariant. -/
theorem pipeline_inv (g : GameState) (p : PlayerState) (d : Direction)
    (hw255 : g.width ≤ 255) (hh255 : g.height ≤ 255)
    (hwalls : ∃ walls, g.move_table = MoveTable.new g.width g.height walls)
    (hmud : ∀ a b v, g.mud a b = some v → 2 ≤ v)
    (hinv : PlayerInv g.width g.height p) :
    PlayerInv g.width g.height
      (missPlayer (settlePlayer (movePhasePlayer g.mud p
        (g.compute_player_move p d).1 (g.compute_player_move p d).2))
        p.current_pos) := by
  obtain ⟨hcx, hcy, htx, hty, hbic⟩ := hinv
  have hmiss := missPlayer_fields (settlePlayer (movePhasePlayer g.mud p
    (g.compute_player_move p d).1 (g.compute_player_move p d).2)) p.current_pos
  obtain ⟨mfc, mft, mfm⟩ := hmiss
  unfold PlayerInv
  rw [mfc, mft, mfm]
  clear mfc mft mfm
  by_cases hm : 0 < p.mud_timer
  · -- in mud: tick
    rw [compute_in_mud g p d hm]
    rw [movePhase_in_mud g.mud p false p.current_pos hm]
    by_cases h1 : p.mud_timer - 1 = 0
    · rw [if_pos h1]
      have hset : settlePlayer
          { p with mud_timer := p.mud_timer - 1, current_pos := p.target_pos } =
          { p with mud_timer := p.mud_timer - 1, current_pos := p.target_pos } := by
        unfold settlePlayer
        rw [if_neg]
        rintro ⟨_, hne⟩
        exact hne rfl
      rw [hset]
      exact ⟨htx, hty, htx, hty, by simp [h1]⟩
    · rw [if_neg h1]
      have hset : settlePlayer { p with mud_timer := p.mud_timer - 1 } =
          { p with mud_timer := p.mud_timer - 1 } := by
        unfold settlePlayer
        rw [if_neg]
        rintro ⟨hz, _⟩
        simp only at hz
        omega
      rw [hset]
      refine ⟨hcx, hcy, htx, hty, ?_⟩
      have hne : p.current_pos ≠ p.target_pos := by
        intro he
        have := hbic.mpr he
        omega
      simp only
      constructor
      · intro hz; exact absurd hz h1
      · intro he; exact absurd he hne
  · -- not in mud
    have h0 : p.mud_timer = 0 := by omega
    have hct : p.current_pos = p.target_pos := hbic.mp h0
    by_cases hstay : d = .Stay
    · subst hstay
      have hcomp : g.compute_player_move p .Stay = (false, p.current_pos) := by
        unfold GameState.compute_player_move
        rw [if_neg (by simp [PlayerState.is_in_mud, h0]), if_pos rfl]
      rw [hcomp]
      have hmp : movePhasePlayer g.mud p false p.current_pos = p := by
        unfold movePhasePlayer
        rw [if_neg (by omega), if_neg (by simp)]
      rw [hmp]
      have hset : settlePlayer p = p := by
        unfold settlePlayer
        rw [if_neg]
        rintro ⟨_, hne⟩
        exact hne hct
      rw [hset]
      exact ⟨hcx, hcy, htx, hty, hbic⟩
    · by_cases hv : g.move_table.is_move_valid p.current_pos d = true
      · -- a legal move
        obtain ⟨walls, hw⟩ := hwalls
        have hdest := valid_move_dest g.width g.height walls p.current_pos
          hw255 hh255 hcx hcy d (by rw [← hw]; exact hv)
        obtain ⟨hdx, hdy, hdne⟩ := hdest
        rw [compute_moved g p d h0 hstay hv]
        dsimp only
        rcases hmt : g.mud p.current_pos (d.apply_to p.current_pos) with _ | v
        · -- no mud on the edge: commit immediately
          have hcommit := movePhase_commit g.mud p (d.apply_to p.current_pos) h0
            (by rw [hmt]; simp)
          rw [hcommit, hmt]
          simp only [Option.getD_none]
          rw [settle_id_of_eq _ rfl]
          exact ⟨hdx, hdy, hdx, hdy, by simp⟩
        · -- mud of cost v ≥ 2: enter mud
          have hv2 : 2 ≤ v := hmud _ _ _ hmt
          have henter := movePhase_enter g.mud p (d.apply_to p.current_pos) h0
            v (by omega) hmt
          rw [henter]
          rw [settle_id_of_timer_ne _ (by show v ≠ 0; omega)]
          refine ⟨hcx, hcy, hdx, hdy, ?_⟩
          simp only
          constructor
          · intro hz; omega
          · intro he; exact absurd he.symm hdne
      · -- wall or boundary: no move
        have hcomp : g.compute_player_move p d = (false, p.current_pos) := by
          unfold GameState.compute_player_move
          rw [if_neg (by simp [PlayerState.is_in_mud, h0]), if_neg hstay,
            if_pos (by simp [hv])]
        rw [hcomp]
        have hmp : movePhasePlayer g.mud p false p.current_pos = p := by
          unfold movePhasePlayer
          rw [if_neg (by omega), if_neg (by simp)]
        rw [hmp]
        have hset : settlePlayer p = p := by
          unfold settlePlayer
          rw [if_neg]
          rintro ⟨_, hne⟩
          exact hne hct
        rw [hset]
        exact ⟨hcx, hcy, htx, hty, hbic⟩

theorem process_turn_turn (g : GameState) (d1 d2 : Direction) :
    (g.process_turn d1 d2).1.turn = g.turn + 1 := by
  obtain ⟨b, s1, s2, hshape⟩ := collection_shape (g.process_moves d1 d2).1
  rw [process_turn_fst, hshape]
  rfl

/-- `process_turn` preserves playability. -/
theorem playable_step (g : GameState) (d1 d2 : Direction)
    (hp : g.Playable) : (g.process_turn d1 d2).1.Playable := by
  obtain ⟨hw, hh, hwalls, hmud, h1, h2⟩ := hp
  obtain ⟨hmx, hwd, hhd, hmt, hmd, _⟩ := process_turn_statics g d1 d2
  refine ⟨by rw [hwd]; exact hw, by rw [hhd]; exact hh, ?_, ?_, ?_, ?_⟩
  · obtain ⟨walls, hweq⟩ := hwalls
    exact ⟨walls, by rw [hmt, hwd, hhd]; exact hweq⟩
  · intro a b v hab
    rw [hmd] at hab
    exact hmud a b v hab
  · rw [hwd, hhd]
    have hfields := process_turn_player1_fields g d1 d2
    obtain ⟨fc, ft, fm, _⟩ := hfields
    unfold PlayerInv
    rw [fc, ft, fm, process_moves_player1]
    exact pipeline_inv g g.player1 d1 hw hh hwalls hmud h1
  · rw [hwd, hhd]
    have hfields := process_turn_player2_fields g d1 d2
    obtain ⟨fc, ft, fm, _⟩ := hfields
    unfold PlayerInv
    rw [fc, ft, fm, process_moves_player2]
    exact pipeline_inv g g.player2 d2 hw hh hwalls hmud h2

/-- States reachable by arbitrary `process_turn` calls. -/
inductive Reachable (g0 : GameState) : GameState → Prop where
  | refl : Reachable g0 g0
  | step (g : GameState) (d1 d2 : Direction) :
      Reachable g0 g → Reachable g0 (g.process_turn d1 d2).1

/-- States reachable while never calling `process_turn` on a state that
is already game-over. -/
inductive ReachableInPlay (g0 : GameState) : GameState → Prop where
  | refl : ReachableInPlay g0 g0
  | step (g : GameState) (d1 d2 : Direction) :
      ReachableInPlay g0 g → g.check_game_over = false →
      ReachableInPlay g0 (g.process_turn d1 d2).1

theorem reachable_playable {g0 g : GameState} (hp : g0.Playable)
    (hr : Reachable g0 g) :
    g.Playable ∧ g.width = g0.width ∧ g.height = g0.height ∧
      g.max_turns = g0.max_turns := by
  induction hr with
  | refl => exact ⟨hp, rfl, rfl, rfl⟩
  | step g d1 d2 _ ih =>
    obtain ⟨ihp, ihw, ihh, ihm⟩ := ih
    obtain ⟨hmx, hwd, hhd, _, _, _⟩ := process_turn_statics g d1 d2
    exact ⟨playable_step g d1 d2 ihp,
      by rw [hwd, ihw], by rw [hhd, ihh], by rw [hmx, ihm]⟩

/-- C2 (amended): for every state reachable from a valid initial
configuration by any sequence of `process_turn` calls, both players'
`current_pos` lie inside the `W x H` board and `mud_timer = 0` holds iff
`current_pos = target_pos`, and `0 ≤ turn` trivially; the upper bound
`turn ≤ max_turns` holds for every state reached without ever calling
`process_turn` on a state that was already game-over (the code has no
game-over guard, so further calls keep incrementing `turn` past
`max_turns`). -/
theorem c2_reachable_invariant (g0 : GameState) (hp : g0.Playable)
    (ht0 : g0.turn = 0) :
    (∀ g, Reachable g0 g →
      g.player1.current_pos.x < g0.width ∧ g.player1.current_pos.y < g0.height ∧
      g.player2.current_pos.x < g0.width ∧ g.player2.current_pos.y < g0.height ∧
      (g.player1.mud_timer = 0 ↔ g.player1.current_pos = g.player1.target_pos) ∧
      (g.player2.mud_timer = 0 ↔ g.player2.current_pos = g.player2.target_pos) ∧
      0 ≤ g.turn) ∧
    (∀ g, ReachableInPlay g0 g → g.turn ≤ g.max_turns) := by
  constructor
  · intro g hr
    obtain ⟨⟨_, _, _, _, hp1, hp2⟩, hwd, hhd, _⟩ := reachable_playable hp hr
    obtain ⟨c1x, c1y, _, _, b1⟩ := hp1
    obtain ⟨c2x, c2y, _, _, b2⟩ := hp2
    rw [hwd] at c1x c2x
    rw [hhd] at c1y c2y
    exact ⟨c1x, c1y, c2x, c2y, b1, b2, Nat.zero_le _⟩
  · intro g hr
    induction hr with
    | refl => omega
    | step g d1 d2 _ hover ih =>
      have hturn := process_turn_turn g d1 d2
      obtain ⟨hmx, _, _, _, _, _⟩ := process_turn_statics g d1 d2
      have hlt : g.turn < g.max_turns := by
        have := check_game_over_iff g
        rw [hover] at this
        have hnot := (not_iff_not.mpr this).mp (by simp)
        push_neg at hnot
        obtain ⟨_, _, _, h4⟩ := hnot
        omega
      rw [hturn, hmx]
      omega

/-- A 3x3 game with `max_turns = 1`, used to exercise the turn bound. -/
def cexGame : GameState :=
  { width := 3
    height := 3
    move_table := MoveTable.new 3 3 noWalls
    player1 := ⟨⟨0, 0⟩, ⟨0, 0⟩, 0, 0, 0⟩
    player2 := ⟨⟨2, 2⟩, ⟨2, 2⟩, 0, 0, 0⟩
    mud := noMud
    cheese := CheeseBoard.new 3 3
    turn := 0
    max_turns := 1 }

/-- Counterexample to C2 as stated: `cexGame` is a valid initial
configuration, yet two `process_turn` calls (a reachable state under the
claim's "any sequence") drive the turn counter to `2 > max_turns = 1`:
`process_turn` never checks for game over before incrementing. -/
theorem cexGame_playable : cexGame.Playable := by
  refine ⟨by decide, by decide, ⟨noWalls, rfl⟩, ?_, by decide, by decide⟩
  intro a b v h
  exact absurd h (by simp [noMud, cexGame])

theorem c2_reachable_invariant_counterexample :
    cexGame.Playable ∧ cexGame.turn = 0 ∧
    ((cexGame.process_turn .Stay .Stay).1.process_turn .Stay .Stay).1.turn = 2 ∧
    ((cexGame.process_turn .Stay .Stay).1.process_turn .Stay .Stay).1.max_turns = 1 ∧
    ¬(((cexGame.process_turn .Stay .Stay).1.process_turn .Stay .Stay).1.turn ≤
        ((cexGame.process_turn .Stay .Stay).1.process_turn .Stay .Stay).1.max_turns) :=
  ⟨cexGame_playable, rfl, by decide, by decide, by decide⟩

theorem exGame_playable : exGame.Playable := by
  refine ⟨by decide, by decide, ⟨noWalls, rfl⟩, ?_, by decide, by decide⟩
  intro a b v h
  have h' : exMud a b = some v := h
  unfold exMud at h'
  by_cases hc : a = (⟨1, 1⟩ : Coordinates) ∧ b = (⟨1, 2⟩ : Coordinates)
  · rw [if_pos hc] at h'
    injection h' with hv
    omega
  · rw [if_neg hc] at h'
    exact absurd h' (by simp)

/-- Witness for C2: the invariant at the initial `exGame` state and the
turn bound after one in-play turn. -/
theorem c2_reachable_invariant_witness :
    (exGame.player1.current_pos.x < exGame.width ∧
      (exGame.player1.mud_timer = 0 ↔
        exGame.player1.current_pos = exGame.player1.target_pos)) ∧
    (exGame.process_turn .Up .Stay).1.turn ≤
      (exGame.process_turn .Up .Stay).1.max_turns := by
  have h := c2_reachable_invariant exGame exGame_playable rfl
  obtain ⟨hinv, hbound⟩ := h
  have h1 := hinv exGame (Reachable.refl)
  have h2 := hbound (exGame.process_turn .Up .Stay).1
    (ReachableInPlay.step exGame .Up .Stay ReachableInPlay.refl (by decide))
  exact ⟨⟨h1.1, h1.2.2.2.2.1⟩, h2⟩

end PyRat
